import Mathlib

/-!
Verification of the incremental structured-output decoder and the concurrent
multi-artifact generation pipeline of the Anqair component builder.

The TypeScript source is shallowly embedded as follows:

* JS strings are modelled as `List Char`.
* `JSON.parse` is modelled by `Json.parse`, a fuel-indexed recursive-descent
  parser over a `Json` value type.  JSON numbers are modelled as integers
  (no fractional or exponent syntax) and string escapes cover the
  single-character escapes; these restrictions are irrelevant to the
  properties proved here, which either hypothesise that a given text parses
  or use inputs inside the modelled fragment.
* The stream decoder `parseJsonStream`, the extractor `extractJson`, and the
  per-artifact state updates are translated statement by statement from the
  source; the brace scanner, the regular-expression fallbacks
  (lazy "```json" fence, greedy first-bracket/last-bracket) and the JS
  truthiness tests are reproduced exactly.
* React `setSessions(prev => prev.map(...))` updates are modelled as pure
  functions on a `List Session` value.
-/

/-! ## Character and list utilities -/

/-- Whitespace recognised by the model (the JSON separators and JS trim core). -/
def isWs (c : Char) : Bool := c = ' ' || c = '\t' || c = '\n' || c = '\r'

/-- Drop leading whitespace. -/
def skipWs : List Char → List Char
  | [] => []
  | c :: cs => if isWs c then skipWs cs else c :: cs

/-- Model of JS `String.prototype.trimStart`. -/
def trimStart (cs : List Char) : List Char := cs.dropWhile (fun c => isWs c)

/-- Model of JS `String.prototype.trimEnd`. -/
def trimEnd (cs : List Char) : List Char := (cs.reverse.dropWhile (fun c => isWs c)).reverse

/-- Model of JS `String.prototype.trim`. -/
def trimBoth (cs : List Char) : List Char := trimEnd (trimStart cs)

/-- Index of the first occurrence of a character, JS `indexOf` (with `-1` as `none`). -/
def firstIdxOf (c : Char) : List Char → Option Nat
  | [] => none
  | x :: xs => if x = c then some 0 else (firstIdxOf c xs).map (· + 1)

/-- JS `indexOf(c, from)`: first occurrence at or after position `s`. -/
def idxOfFrom (b : List Char) (c : Char) (s : Nat) : Option Nat :=
  (firstIdxOf c (b.drop s)).map (· + s)

/-- Index of the first occurrence of a substring. -/
def firstSubIdx (pat : List Char) : List Char → Option Nat
  | [] => if pat = [] then some 0 else none
  | c :: rest => if pat.isPrefixOf (c :: rest) then some 0 else (firstSubIdx pat rest).map (· + 1)

/-- Index of the last occurrence of a character, JS `lastIndexOf`. -/
def lastIdxOf (c : Char) (cs : List Char) : Option Nat :=
  (firstIdxOf c cs.reverse).map (fun i => cs.length - 1 - i)

/-! ## The JSON value model and the `JSON.parse` model -/

inductive Json where
  | null : Json
  | bool (b : Bool) : Json
  | num (n : Int) : Json
  | str (s : List Char) : Json
  | arr (xs : List Json) : Json
  | obj (fs : List (List Char × Json)) : Json

/-- Single-character string escapes accepted after a backslash. -/
def escChar (c : Char) : Option Char :=
  if c = '"' then some '"'
  else if c = '\\' then some '\\'
  else if c = '/' then some '/'
  else if c = 'n' then some '\n'
  else if c = 't' then some '\t'
  else if c = 'r' then some '\r'
  else if c = 'b' then some (Char.ofNat 8)
  else if c = 'f' then some (Char.ofNat 12)
  else none

/-- Parse the body of a string literal (after the opening quote), returning the
decoded content and the remainder after the closing quote. -/
def parseStrBody : List Char → Option (List Char × List Char)
  | [] => none
  | c :: cs =>
    if c = '"' then some ([], cs)
    else if c = '\\' then
      match cs with
      | [] => none
      | d :: cs' =>
        match escChar d with
        | some e => (parseStrBody cs').map (fun r => (e :: r.1, r.2))
        | none => none
    else (parseStrBody cs).map (fun r => (c :: r.1, r.2))

/-- Split a leading run of decimal digits. -/
def takeDigits : List Char → List Char × List Char
  | [] => ([], [])
  | c :: cs =>
    if c.isDigit then
      let r := takeDigits cs
      (c :: r.1, r.2)
    else ([], c :: cs)

/-- Numeric value of a digit string. -/
def digitsVal (ds : List Char) : Nat := ds.foldl (fun a c => 10 * a + (c.toNat - 48)) 0

/-- Parse an integer literal (optional minus sign, then digits). -/
def parseNumFrom (cs : List Char) : Option (Json × List Char) :=
  match cs with
  | [] => none
  | c :: r =>
    if c = '-' then
      let p := takeDigits r
      if p.1 = [] then none else some (.num (-(digitsVal p.1 : Int)), p.2)
    else
      let p := takeDigits (c :: r)
      if p.1 = [] then none else some (.num ((digitsVal p.1 : Int)), p.2)

/-- Parse the members of an object, starting at the first key and consuming the
closing brace.  `pv` parses one value; the fuel bounds the number of members. -/
def membersLoop (pv : List Char → Option (Json × List Char)) :
    Nat → List Char → Option (List (List Char × Json) × List Char)
  | 0, _ => none
  | m + 1, cs =>
    match cs with
    | '"' :: r =>
      match parseStrBody r with
      | none => none
      | some (k, r1) =>
        match skipWs r1 with
        | ':' :: r2 =>
          match pv r2 with
          | none => none
          | some (v, r3) =>
            match skipWs r3 with
            | ',' :: r4 =>
              match membersLoop pv m (skipWs r4) with
              | some (fs, r5) => some ((k, v) :: fs, r5)
              | none => none
            | '}' :: r4 => some ([(k, v)], r4)
            | _ => none
        | _ => none
    | _ => none

/-- Parse the items of an array, starting at the first item and consuming the
closing bracket. -/
def itemsLoop (pv : List Char → Option (Json × List Char)) :
    Nat → List Char → Option (List Json × List Char)
  | 0, _ => none
  | m + 1, cs =>
    match pv cs with
    | none => none
    | some (v, r1) =>
      match skipWs r1 with
      | ',' :: r2 =>
        match itemsLoop pv m (skipWs r2) with
        | some (vs, r3) => some (v :: vs, r3)
        | none => none
      | ']' :: r2 => some ([v], r2)
      | _ => none

/-- Parse the remainder of an object after the opening brace and whitespace. -/
def parseObjTail (pv : List Char → Option (Json × List Char)) (cs : List Char) :
    Option (Json × List Char) :=
  match cs with
  | '}' :: r => some (.obj [], r)
  | _ => (membersLoop pv (cs.length + 1) cs).map (fun p => (.obj p.1, p.2))

/-- Parse the remainder of an array after the opening bracket and whitespace. -/
def parseArrTail (pv : List Char → Option (Json × List Char)) (cs : List Char) :
    Option (Json × List Char) :=
  match cs with
  | ']' :: r => some (.arr [], r)
  | _ => (itemsLoop pv (cs.length + 1) cs).map (fun p => (.arr p.1, p.2))

/-- Parse one JSON value, returning it and the unconsumed remainder.  The fuel
bounds the nesting depth; `Json.parse` supplies a fuel that always suffices. -/
def parseVal : Nat → List Char → Option (Json × List Char)
  | 0, _ => none
  | n + 1, cs0 =>
    match skipWs cs0 with
    | [] => none
    | c :: r =>
      if c = 'n' then
        match r with
        | 'u' :: 'l' :: 'l' :: r' => some (.null, r')
        | _ => none
      else if c = 't' then
        match r with
        | 'r' :: 'u' :: 'e' :: r' => some (.bool true, r')
        | _ => none
      else if c = 'f' then
        match r with
        | 'a' :: 'l' :: 's' :: 'e' :: r' => some (.bool false, r')
        | _ => none
      else if c = '"' then (parseStrBody r).map (fun p => (.str p.1, p.2))
      else if c = '{' then parseObjTail (parseVal n) (skipWs r)
      else if c = '[' then parseArrTail (parseVal n) (skipWs r)
      else parseNumFrom (c :: r)

/-- Model of `JSON.parse`: the whole input must be one value surrounded by
optional whitespace; any failure is reported as `none` (the JS exception). -/
def Json.parse (cs : List Char) : Option Json :=
  match parseVal (cs.length + 1) cs with
  | some (v, rest) => if skipWs rest = [] then some v else none
  | none => none

/-! ## The fragment decoder `parseJsonStream` -/

/-- Contribution of one character to the brace counter. -/
def braceDelta (c : Char) : Int := if c = '{' then 1 else if c = '}' then -1 else 0

/-- Net brace depth of a character list. -/
def depthCnt (cs : List Char) : Int := (cs.map braceDelta).sum

/-- The inner scan of `parseJsonStream`: starting at global index `i` with
counter `cnt`, report the first index `> s` where the counter returns to zero. -/
def scanGo : List Char → Nat → Int → Nat → Option Nat
  | [], _, _, _ => none
  | c :: rest, i, cnt, s =>
    let cnt' := cnt + braceDelta c
    if cnt' = 0 ∧ i > s then some i else scanGo rest (i + 1) cnt' s

/-- The `for` loop of `parseJsonStream`: scan `b` from position `s` counting
braces; return the position where the count first returns to zero. -/
def findEnd (b : List Char) (s : Nat) : Option Nat := scanGo (b.drop s) s 0 s

/-- The `while (start !== -1)` loop of `parseJsonStream`.  On a balanced span,
parse it; on success yield the value, drop the consumed prefix and restart at
the next opening brace; on parse failure advance the start to the next opening
brace after the current one; with no balanced span, stop and keep the buffer.
The fuel is an upper bound on the number of iterations; callers pass
`b.length + 1`, which always suffices. -/
def loopFrom : Nat → List Char → Nat → List Json × List Char
  | 0, b, _ => ([], b)
  | fuel + 1, b, s =>
    match findEnd b s with
    | none => ([], b)
    | some e =>
      match Json.parse ((b.drop s).take (e + 1 - s)) with
      | some v =>
        match firstIdxOf '{' (b.drop (e + 1)) with
        | none => ([v], b.drop (e + 1))
        | some s' =>
          let r := loopFrom fuel (b.drop (e + 1)) s'
          (v :: r.1, r.2)
      | none =>
        match idxOfFrom b '{' (s + 1) with
        | none => ([], b)
        | some s' => loopFrom fuel b s'

/-- Process the whole buffer after a fragment arrival: find the first opening
brace and run the scanning loop. -/
def feedBuffer (b : List Char) : List Json × List Char :=
  match firstIdxOf '{' b with
  | none => ([], b)
  | some s => loopFrom (b.length + 1) b s

/-- One fragment arrival: append the fragment to the buffer and process it. -/
def streamStep (st : List Json × List Char) (c : List Char) : List Json × List Char :=
  (st.1 ++ (feedBuffer (st.2 ++ c)).1, (feedBuffer (st.2 ++ c)).2)

/-- Model of `parseJsonStream`: fold the fragments through the buffer, yielding
all decoded values; the trailing buffer is discarded when the stream ends. -/
def parseJsonStream (chunks : List (List Char)) : List Json :=
  (chunks.foldl streamStep ([], [])).1

/-- A scanner-clean object text: it starts with an opening brace, its net brace
depth is zero, and every proper nonempty prefix has positive depth.  This is
exactly the class of texts on which the escape-unaware brace counter of
`parseJsonStream` finds the true end of the object; a brace inside a string
literal breaks it. -/
def scanClean (cs : List Char) : Bool :=
  match cs with
  | '{' :: _ =>
    decide (depthCnt cs = 0) &&
      (List.range (cs.length - 1)).all (fun k => decide (1 ≤ depthCnt (cs.take (k + 1))))
  | _ => false

/-! ## The response extractor `extractJson` -/

/-- The opening delimiter of a JSON code fence. -/
def fenceOpenPat : List Char := '`' :: '`' :: '`' :: 'j' :: 's' :: 'o' :: 'n' :: []

/-- A bare code-fence delimiter. -/
def fencePat : List Char := '`' :: '`' :: '`' :: []

/-- Model of `text.match(/```json([\s\S]*?)```/)`: the first fence opener, then
the lazily-nearest closing fence; returns (whole match, captured inner text). -/
def fenceMatch (text : List Char) : Option (List Char × List Char) :=
  match firstSubIdx fenceOpenPat text with
  | none => none
  | some i =>
    let after := text.drop (i + 7)
    match firstSubIdx fencePat after with
    | none => none
    | some j => some ((text.drop i).take (7 + j + 3), after.take j)

/-- Model of `text.match(/\[([\s\S]*)\]/)`: greedy match from the first `[` to
the last `]`; returns (whole match, captured inner text without the brackets). -/
def bracketMatch (text : List Char) : Option (List Char × List Char) :=
  match firstIdxOf '[' text, lastIdxOf ']' text with
  | some i, some j =>
    if i < j then
      some ((text.drop i).take (j + 1 - i), (text.drop (i + 1)).take (j - (i + 1)))
    else none
  | _, _ => none

/-- Model of `match[1] || match[0]`: the captured group unless it is the empty
string, in which case the whole match. -/
def matchSel (m : List Char × List Char) : List Char := if m.2 = [] then m.1 else m.2

/-- Model of `extractJson`: raw parse, else the fenced block if one matches,
else the greedy bracket span; `none` models returning `null`. -/
def extractJson (text : List Char) : Option Json :=
  match Json.parse text with
  | some v => some v
  | none =>
    match fenceMatch text with
    | some m => Json.parse (matchSel m)
    | none =>
      match bracketMatch text with
      | some m => Json.parse (matchSel m)
      | none => none

/-! ## The artifact data model and the orchestrator's store updates -/

inductive Status where
  | streaming : Status
  | complete : Status
  | error : Status
deriving DecidableEq

structure Artifact where
  id : List Char
  styleName : List Char
  html : List Char
  status : Status
deriving DecidableEq

structure Session where
  id : List Char
  prompt : List Char
  userAnswers : List (List Char × List Char)
  timestamp : Nat
  artifacts : List Artifact
deriving DecidableEq

/-- The fixed error placeholder written on a failed generation task. -/
def genFailedHtml : List Char :=
  "<div style=\"padding:20px; color:red\">Generation Failed</div>".toList

/-- The leading fence marker stripped by the post-stream cleanup. -/
def fenceHtmlPat : List Char := '`' :: '`' :: '`' :: 'h' :: 't' :: 'm' :: 'l' :: []

/-- Model of the post-stream cleanup in `generateArtifact`: trim, strip a
leading "```html" or "```" marker (plus following whitespace), then strip a
trailing "```" marker (plus preceding whitespace). -/
def cleanupHtml (acc : List Char) : List Char :=
  let f0 := trimBoth acc
  let f1 := if fenceHtmlPat.isPrefixOf f0 then trimStart (f0.drop 7) else f0
  let f2 := if fencePat.isPrefixOf f1 then trimStart (f1.drop 3) else f1
  if fencePat.reverse.isPrefixOf f2.reverse then trimEnd (f2.take (f2.length - 3)) else f2

/-- One mutation applied to an artifact, as performed by the source's
`setSessions` updates: a streaming content write, the end-of-stream
finalisation, the failure handler, and `applyVariation`. -/
inductive ArtOp where
  | setHtml (h : List Char) : ArtOp
  | finalize (h : List Char) : ArtOp
  | fail : ArtOp
  | applyVar (h : List Char) : ArtOp
deriving DecidableEq

/-- The artifact-level effect of each mutation, exactly as in the source:
streaming writes replace `html` only; finalisation writes the cleaned text and
sets `complete` when it is nonempty, else `error`; the failure handler writes
the fixed placeholder and `error`; `applyVariation` writes the chosen html and
sets `complete` unconditionally. -/
def applyArtOp : ArtOp → Artifact → Artifact
  | .setHtml h, a => { a with html := h }
  | .finalize h, a => { a with html := h, status := if h = [] then .error else .complete }
  | .fail, a => { a with html := genFailedHtml, status := .error }
  | .applyVar h, a => { a with html := h, status := .complete }

/-- Run a sequence of artifact mutations. -/
def runArtifact (a : Artifact) (ops : List ArtOp) : Artifact :=
  ops.foldl (fun x op => applyArtOp op x) a

/-- The successive states of an artifact along a mutation sequence. -/
def artifactStates (a : Artifact) (ops : List ArtOp) : List Artifact :=
  ops.scanl (fun x op => applyArtOp op x) a

/-- The accumulated texts written by a streaming task after each fragment. -/
def accumStates (frags : List (List Char)) : List (List Char) :=
  (List.range frags.length).map (fun k => (frags.take (k + 1)).flatten)

/-- The mutation sequence of a generation task whose stream completes: one
content write per fragment, then the finalisation on the cleaned full text. -/
def taskSuccessOps (frags : List (List Char)) : List ArtOp :=
  (accumStates frags).map .setHtml ++ [.finalize (cleanupHtml frags.flatten)]

/-- The mutation sequence of a generation task that throws after receiving some
fragments: the content writes so far, then the failure handler. -/
def taskFailOps (frags : List (List Char)) : List ArtOp :=
  (accumStates frags).map .setHtml ++ [.fail]

/-- A `setSessions` update: apply `op` to the artifact with id `aid` inside the
session with id `sid`, leaving every other artifact and session untouched. -/
def updSessions (sid aid : List Char) (op : ArtOp) (sessions : List Session) : List Session :=
  sessions.map fun sess =>
    if sess.id = sid then
      { sess with
        artifacts := sess.artifacts.map fun art =>
          if art.id = aid then applyArtOp op art else art }
    else sess

/-- Run a list of (artifact id, mutation) pairs against the store, all within
the session `sid` — the store-level trace of the N concurrent tasks. -/
def runTagged (sid : List Char) (ops : List (List Char × ArtOp)) (sessions : List Session) :
    List Session :=
  ops.foldl (fun ss t => updSessions sid t.1 t.2 ss) sessions

/-- Fold only the mutations addressed to a fixed artifact. -/
def artFold (ops : List (List Char × ArtOp)) (a : Artifact) : Artifact :=
  ops.foldl (fun x t => if x.id = t.1 then applyArtOp t.2 x else x) a

/-- Tag every mutation of a task with its artifact id. -/
def tagOps (aid : List Char) (ops : List ArtOp) : List (List Char × ArtOp) :=
  ops.map (fun op => (aid, op))

/-- An arbitrary interleaving of three task traces, preserving the inner order
of each trace — the scheduling freedom of the three concurrent tasks. -/
inductive Interleave3 : List α → List α → List α → List α → Prop where
  | nil : Interleave3 [] [] [] []
  | cons₁ (a : α) : Interleave3 xs ys zs ws → Interleave3 (a :: xs) ys zs (a :: ws)
  | cons₂ (a : α) : Interleave3 xs ys zs ws → Interleave3 xs (a :: ys) zs (a :: ws)
  | cons₃ (a : α) : Interleave3 xs ys zs ws → Interleave3 xs ys (a :: zs) (a :: ws)

/-! ## The planning step and the variation flow -/

/-- The fixed fallback style labels of `startGeneration`. -/
def fallbackStyles : List (List Char) :=
  ["Modern Clean".toList, "Futuristic Dark".toList, "Spatial Depth".toList]

/-- The style-list post-processing of `startGeneration`: when fewer than three
labels were produced the whole list is replaced by the fallback list, then the
list is truncated to three. -/
def resolveStyles (generatedStyles : List (List Char)) : List (List Char) :=
  let gs := if generatedStyles.length < 3 then fallbackStyles else generatedStyles
  gs.take 3

/-- The `setSessions` update that writes the planned style labels onto the
placeholder artifacts by ordinal position. -/
def applyStylesSession (styles : List (List Char)) (s : Session) : Session :=
  { s with artifacts := s.artifacts.mapIdx (fun i a => { a with styleName := styles.getD i [] }) }

/-- JS truthiness of an optional field of a parsed JSON value: absent fields,
`null`, `false`, `0` and the empty string are falsy. -/
def jsTruthy : Option Json → Bool
  | none => false
  | some .null => false
  | some (.bool b) => b
  | some (.num n) => decide (n ≠ 0)
  | some (.str s) => decide (s ≠ [])
  | some (.arr _) => true
  | some (.obj _) => true

/-- JS property access on a parsed JSON value: only objects have fields, and a
duplicated key takes its last occurrence, as in `JSON.parse`. -/
def getField (v : Json) (k : List Char) : Option Json :=
  match v with
  | .obj fs => (fs.reverse.find? (fun kv => kv.1 = k)).map (·.2)
  | _ => none

/-- The filter of `handleGenerateVariations`: keep a decoded value only when
both its `name` and its `html` fields are truthy. -/
def keepVariation (v : Json) : Bool :=
  jsTruthy (getField v "name".toList) && jsTruthy (getField v "html".toList)

/-- The variation flow: decode the fragment stream and append every decoded
value that passes the truthiness filter, in decoding order. -/
def collectVariations (chunks : List (List Char)) : List Json :=
  (parseJsonStream chunks).filter keepVariation

/-- The transitions the amended claim allows between adjacent states: the
status never returns to `streaming` once it has left it, and never moves from
`complete` to `error`. -/
def okTransition (x y : Status) : Prop :=
  (y = .streaming → x = .streaming) ∧ ¬(x = .complete ∧ y = .error)

/-- The texts of a well-formed stream: each parses to the corresponding value
and is scanner-clean. -/
def cleanParses (ts : List (List Char)) (vs : List Json) : Prop :=
  List.Forall₂ (fun t v => Json.parse t = some v ∧ scanClean t = true) ts vs

/-! ## Claim C4: the greedy bracket fallback of `extractJson` -/

/-- C4 counterexample: on the input `x [1,2] y` the span from the first `[` to
the last `]` is valid JSON (the array `[1,2]`), yet `extractJson` returns the
failure value, because the source parses `match[1]` — the captured text
*between* the brackets, here `1,2`, which is not valid JSON — rather than the
bracketed span itself. -/
theorem extractJson_bracket_cx :
    extractJson "x [1,2] y".toList = none ∧
      Json.parse "[1,2]".toList = some (.arr [.num 1, .num 2]) :=
  ⟨rfl, rfl⟩

/-- C4 amended: when direct parsing fails, no JSON code fence occurs, the first
`[` is at `i` and the last `]` is at `j > i`, `extractJson` parses the captured
text strictly between the two brackets (falling back to the whole bracketed
span only when that captured text is empty). -/
theorem extractJson_bracket (text : List Char) (i j : Nat)
    (h1 : Json.parse text = none)
    (h2 : firstSubIdx fenceOpenPat text = none)
    (h3 : firstIdxOf '[' text = some i)
    (h4 : lastIdxOf ']' text = some j)
    (h5 : i < j) :
    extractJson text =
      Json.parse
        (matchSel ((text.drop i).take (j + 1 - i), (text.drop (i + 1)).take (j - (i + 1)))) := by
  simp [extractJson, fenceMatch, bracketMatch, h1, h2, h3, h4, h5]

/-- C4 amended, witness: on `x [[1,2]] y` the captured inner text is `[1,2]`,
which parses, so the array is returned. -/
theorem extractJson_bracket_witness :
    extractJson "x [[1,2]] y".toList = some (.arr [.num 1, .num 2]) :=
  (extractJson_bracket "x [[1,2]] y".toList 2 8 rfl rfl rfl rfl (by decide)).trans rfl

/-! ## Claim C5: the fallback chain of `extractJson` -/

/-- C5 counterexample: the input contains a JSON code fence whose inner text is
not valid JSON, while the first-bracket/last-bracket span `[[1]]` is valid
JSON; the claim predicts the array is returned, but `extractJson` returns the
failure value, because `match(A) || match(B)` never consults the bracket
pattern once the fence pattern has matched. -/
theorem extractJson_chain_cx :
    extractJson ("```json oops ``` [[1]]".toList) = none ∧
      Json.parse "[[1]]".toList = some (.arr [.arr [.num 1]]) :=
  ⟨rfl, rfl⟩

/-- C5 amended: `extractJson` first tries a raw parse; if that fails and the
fence pattern matches, the result is the parse of the fence's selected text —
whether or not a bracket span would have parsed; the bracket span is attempted
only when no fence matches; and the failure value is returned exactly when the
attempted parses all fail. -/
theorem extractJson_chain :
    (∀ text v, Json.parse text = some v → extractJson text = some v) ∧
    (∀ text m, Json.parse text = none → fenceMatch text = some m →
      extractJson text = Json.parse (matchSel m)) ∧
    (∀ text m, Json.parse text = none → fenceMatch text = none → bracketMatch text = some m →
      extractJson text = Json.parse (matchSel m)) ∧
    (∀ text, Json.parse text = none → fenceMatch text = none → bracketMatch text = none →
      extractJson text = none) := by
  refine ⟨?_, ?_, ?_, ?_⟩ <;> intros <;> simp [extractJson, *]

/-- C5 amended, witness: on the counterexample text the fence matches with
inner text ` oops `, so the extractor returns that text's parse — the failure
value — even though the bracket span would have parsed. -/
theorem extractJson_chain_witness :
    extractJson ("```json oops ``` [[1]]".toList) =
      Json.parse (matchSel ("```json oops ```".toList, " oops ".toList)) :=
  extractJson_chain.2.1 ("```json oops ``` [[1]]".toList)
    ("```json oops ```".toList, " oops ".toList) rfl rfl

/-! ## Claim C2: the planning step's style labels -/

/-- C2 counterexample: when planning returns the single label `A`, the final
label list is the complete fallback list — the returned label `A` is not kept
and padded, it is discarded. -/
theorem resolveStyles_cx :
    resolveStyles ["A".toList] = fallbackStyles ∧ "A".toList ∉ resolveStyles ["A".toList] := by
  refine ⟨rfl, ?_⟩
  decide

/-- C2 amended: the resolved label list always has exactly three entries; when
fewer than three labels are returned the whole list is replaced by the fixed
fallback list (the returned labels are discarded, not padded); when at least
three are returned the list is truncated to the first three; and applying the
resolved labels writes them onto the three artifacts by ordinal position. -/
theorem resolveStyles_spec :
    (∀ gs : List (List Char), (resolveStyles gs).length = 3) ∧
    (∀ gs : List (List Char), gs.length < 3 → resolveStyles gs = fallbackStyles) ∧
    (∀ gs : List (List Char), 3 ≤ gs.length → resolveStyles gs = gs.take 3) ∧
    (∀ (s : Session) (gs : List (List Char)), s.artifacts.length = 3 →
      ((applyStylesSession (resolveStyles gs) s).artifacts.map (·.styleName)) =
        resolveStyles gs) := by
  have hlen : ∀ gs : List (List Char), (resolveStyles gs).length = 3 := by
    intro gs
    by_cases h : gs.length < 3
    · simp [resolveStyles, h, fallbackStyles]
    · simp [resolveStyles, h]
      omega
  refine ⟨hlen, ?_, ?_, ?_⟩
  · intro gs h
    simp [resolveStyles, h, fallbackStyles]
  · intro gs h
    have : ¬ gs.length < 3 := by omega
    simp [resolveStyles, this]
  · intro s gs harts
    obtain ⟨a, b, c, harts3⟩ : ∃ a b c, s.artifacts = [a, b, c] := by
      match hh : s.artifacts with
      | [a, b, c] => exact ⟨a, b, c, rfl⟩
      | [] | [_] | [_, _] => simp [hh] at harts
      | _ :: _ :: _ :: _ :: _ => simp [hh] at harts
    obtain ⟨x, y, z, hsty⟩ : ∃ x y z, resolveStyles gs = [x, y, z] := by
      have := hlen gs
      match hh : resolveStyles gs with
      | [x, y, z] => exact ⟨x, y, z, rfl⟩
      | [] | [_] | [_, _] => simp [hh] at this
      | _ :: _ :: _ :: _ :: _ => simp [hh] at this
    simp [applyStylesSession, harts3, hsty, List.mapIdx_cons]

/-- C2 amended, witness: a one-label plan is replaced by the fallback list; a
four-label plan is truncated to the first three; the resolved labels land on
the three placeholder artifacts in order. -/
theorem resolveStyles_spec_witness :
    resolveStyles ["A".toList] = fallbackStyles ∧
    resolveStyles ["a".toList, "b".toList, "c".toList, "d".toList] =
      ["a".toList, "b".toList, "c".toList] ∧
    ((applyStylesSession (resolveStyles ["A".toList])
        { id := ['s'], prompt := ['p'], userAnswers := [], timestamp := 0,
          artifacts :=
            [ { id := ['s', '0'], styleName := [], html := [], status := .streaming },
              { id := ['s', '1'], styleName := [], html := [], status := .streaming },
              { id := ['s', '2'], styleName := [], html := [], status := .streaming } ] }).artifacts.map
      (·.styleName)) = resolveStyles ["A".toList] :=
  ⟨resolveStyles_spec.2.1 ["A".toList] (by decide),
   (resolveStyles_spec.2.2.1 ["a".toList, "b".toList, "c".toList, "d".toList] (by decide)).trans rfl,
   resolveStyles_spec.2.2.2 _ ["A".toList] rfl⟩

/-! ## Claim C3: artifact status transitions -/

/-- C3 counterexample: an artifact whose generation task failed is in `error`
status, and applying a variation to it afterwards moves it to `complete` — the
status does transition out of `error`, contrary to the claim. -/
theorem statusTransition_cx :
    (runArtifact { id := ['a'], styleName := [], html := [], status := .streaming }
        [.fail]).status = .error ∧
    (runArtifact { id := ['a'], styleName := [], html := [], status := .streaming }
        [.fail, .applyVar ['x']]).status = .complete :=
  ⟨rfl, rfl⟩

/-- The first state of a `scanl` trace is the initial state. -/
theorem scanl_head {α β : Type} (f : α → β → α) (b : α) (l : List β) :
    (List.scanl f b l).head? = some b := by
  cases l <;> simp [List.scanl]

/-- The first state of an artifact trace is the initial artifact. -/
theorem artifactStates_head (a : Artifact) (ops : List ArtOp) :
    (artifactStates a ops).head? = some a := by
  cases ops <;> simp [artifactStates]

/-- Content writes do not change the status. -/
theorem runArtifact_setHtml_status (hs : List (List Char)) (a : Artifact) :
    (runArtifact a (hs.map .setHtml)).status = a.status := by
  induction hs generalizing a with
  | nil => rfl
  | cons h t ih => simpa [runArtifact, applyArtOp] using ih { a with html := h }

/-- Applying variations yields transition-safe traces from any start state. -/
theorem chain_applyVars (vars : List (List Char)) (a : Artifact) :
    (artifactStates a (vars.map .applyVar)).Chain' (fun x y => okTransition x.status y.status) := by
  induction vars generalizing a with
  | nil => simp [artifactStates]
  | cons v t ih =>
    rw [List.map_cons, artifactStates, List.scanl]
    refine List.chain'_cons'.mpr ⟨?_, ih _⟩
    intro y hy
    rw [scanl_head] at hy
    cases hy
    exact ⟨by simp [applyArtOp], by simp [applyArtOp]⟩

/-- C3 amended: along any per-artifact trace of the program — streaming content
writes, then one finalisation or failure, then any number of applied
variations — the status never returns to `streaming` after leaving it and
never moves from `complete` to `error`.  (By the counterexample, `error` to
`complete` can occur, via `applyVariation`.) -/
theorem statusTransitions_ok (a0 : Artifact) (upds : List (List Char)) (lastOp : ArtOp)
    (vars : List (List Char)) (h0 : a0.status = .streaming) :
    (artifactStates a0 (upds.map .setHtml ++ lastOp :: vars.map .applyVar)).Chain'
      (fun x y => okTransition x.status y.status) := by
  induction upds generalizing a0 with
  | nil =>
    rw [List.map_nil, List.nil_append, artifactStates, List.scanl]
    refine List.chain'_cons'.mpr ⟨?_, chain_applyVars vars _⟩
    intro y hy
    rw [scanl_head] at hy
    cases hy
    exact ⟨fun _ => h0, by simp [h0]⟩
  | cons u t ih =>
    rw [List.map_cons, List.cons_append, artifactStates, List.scanl]
    refine List.chain'_cons'.mpr ⟨?_, ih _ (by simpa [applyArtOp] using h0)⟩
    intro y hy
    rw [scanl_head] at hy
    cases hy
    exact ⟨fun _ => h0, by simp [h0]⟩

/-- C3 amended, witness: a concrete trace — one content write, a failure, then
one applied variation — is transition-safe in the amended sense. -/
theorem statusTransitions_ok_witness :
    (artifactStates { id := ['a'], styleName := [], html := [], status := .streaming }
        ([['x']].map .setHtml ++ ArtOp.fail :: [['v']].map .applyVar)).Chain'
      (fun x y => okTransition x.status y.status) :=
  statusTransitions_ok _ [['x']] .fail [['v']] rfl


/-! ## Claim C8: end-of-stream cleanup and finalisation -/

/-- Dropping leading whitespace passes over a whitespace character. -/
theorem trimStart_cons_ws {c : Char} (h : isWs c = true) (l : List Char) :
    trimStart (c :: l) = trimStart l := by
  simp [trimStart, List.dropWhile_cons, h]

/-- Dropping leading whitespace stops at a non-whitespace character. -/
theorem trimStart_cons_not_ws {c : Char} (h : isWs c = false) (l : List Char) :
    trimStart (c :: l) = c :: l := by
  simp [trimStart, List.dropWhile_cons, h]

/-- Dropping trailing whitespace removes a trailing whitespace character. -/
theorem trimEnd_append_ws {c : Char} (h : isWs c = true) (l : List Char) :
    trimEnd (l ++ [c]) = trimEnd l := by
  simp [trimEnd, List.dropWhile_cons, h]

/-- A list whose last character is not whitespace is unchanged by `trimEnd`. -/
theorem trimEnd_of_getLast {c : Char} (l : List Char) (hl : l.getLast? = some c)
    (h : isWs c = false) : trimEnd l = l := by
  have hrev : l.reverse.head? = some c := by
    rw [List.head?_reverse, hl]
  obtain ⟨t, ht⟩ : ∃ t, l.reverse = c :: t := by
    cases hrev' : l.reverse with
    | nil => rw [hrev'] at hrev; simp at hrev
    | cons x xs =>
      rw [hrev'] at hrev
      simp at hrev
      exact ⟨xs, by rw [hrev]⟩
  have hl2 : l = t.reverse ++ [c] := by
    have h2 : l.reverse.reverse = (c :: t).reverse := by rw [ht]
    simpa using h2
  rw [trimEnd, ht]
  simp [List.dropWhile_cons, h]
  exact hl2.symm

/-- Folding a run of content writes leaves every field but `html` unchanged and
writes the last accumulated text. -/
theorem runArtifact_setHtmls (hs : List (List Char)) (a : Artifact) :
    runArtifact a (hs.map .setHtml) = { a with html := hs.getLastD a.html } := by
  induction hs generalizing a with
  | nil => rfl
  | cons h t ih =>
    rw [List.map_cons, runArtifact, List.foldl_cons]
    rw [show List.foldl (fun x op => applyArtOp op x) (applyArtOp (.setHtml h) a) (t.map .setHtml) =
      runArtifact (applyArtOp (.setHtml h) a) (t.map .setHtml) from rfl, ih]
    cases t <;> simp [applyArtOp, List.getLastD]

/-- A generation task whose stream completes finalises its artifact with the
cleaned accumulated text, `complete` when that text is nonempty, else `error`;
the artifact's identity and label are untouched. -/
theorem runArtifact_success (frags : List (List Char)) (a : Artifact) :
    runArtifact a (taskSuccessOps frags) =
      { a with html := cleanupHtml frags.flatten,
               status := if cleanupHtml frags.flatten = [] then .error else .complete } := by
  rw [taskSuccessOps, runArtifact, List.foldl_append,
    show List.foldl (fun x op => applyArtOp op x) a ((accumStates frags).map .setHtml) =
      runArtifact a ((accumStates frags).map .setHtml) from rfl, runArtifact_setHtmls]
  rfl

/-- A generation task that throws writes the fixed placeholder and `error`;
the artifact's identity and label are untouched. -/
theorem runArtifact_failure (frags : List (List Char)) (a : Artifact) :
    runArtifact a (taskFailOps frags) =
      { a with html := genFailedHtml, status := .error } := by
  rw [taskFailOps, runArtifact, List.foldl_append,
    show List.foldl (fun x op => applyArtOp op x) a ((accumStates frags).map .setHtml) =
      runArtifact a ((accumStates frags).map .setHtml) from rfl, runArtifact_setHtmls]
  rfl

/-- A list whose first character is not whitespace is unchanged by `trimStart`. -/
theorem trimStart_eq_self (c : Char) (l : List Char) (hl : l.head? = some c)
    (h : isWs c = false) : trimStart l = l := by
  cases l with
  | nil => rfl
  | cons x xs =>
    simp at hl
    subst hl
    exact trimStart_cons_not_ws h xs

/-- C8: on stream completion the artifact's final content is the accumulated
text cleaned of wrapping fence markers, and the status becomes `complete`
exactly when that cleaned text is nonempty and `error` exactly when it is
empty; moreover the cleanup strips a leading "```html" marker and a trailing
"```" marker together with the surrounding whitespace and newlines. -/
theorem finalize_cleanup_spec :
    (∀ (frags : List (List Char)) (a : Artifact),
      (runArtifact a (taskSuccessOps frags)).html = cleanupHtml frags.flatten) ∧
    (∀ (frags : List (List Char)) (a : Artifact),
      ((runArtifact a (taskSuccessOps frags)).status = .complete ↔
        cleanupHtml frags.flatten ≠ [])) ∧
    (∀ (frags : List (List Char)) (a : Artifact),
      ((runArtifact a (taskSuccessOps frags)).status = .error ↔
        cleanupHtml frags.flatten = [])) ∧
    (∀ (body' : List Char) (c0 cL : Char),
      isWs c0 = false → c0 ≠ '`' →
      (c0 :: body').getLast? = some cL → isWs cL = false →
      cleanupHtml (fenceHtmlPat ++ '\n' :: (c0 :: body') ++ '\n' :: fencePat) = c0 :: body') := by
  refine ⟨?_, ?_, ?_, ?_⟩
  · intro frags a; rw [runArtifact_success]
  · intro frags a
    rw [runArtifact_success]
    by_cases h : cleanupHtml frags.flatten = [] <;> simp [h]
  · intro frags a
    rw [runArtifact_success]
    by_cases h : cleanupHtml frags.flatten = [] <;> simp [h]
  · intro body' c0 cL hc0 hc0b hlast hcL
    have hwsNl : isWs '\n' = true := by decide
    have hwsBt : isWs '`' = false := by decide
    have h1 : trimBoth (fenceHtmlPat ++ '\n' :: (c0 :: body') ++ '\n' :: fencePat) =
        fenceHtmlPat ++ '\n' :: (c0 :: body') ++ '\n' :: fencePat := by
      have hlastX : (fenceHtmlPat ++ '\n' :: (c0 :: body') ++ '\n' :: fencePat).getLast? =
          some '`' := by
        have he : fenceHtmlPat ++ '\n' :: (c0 :: body') ++ '\n' :: fencePat =
            (fenceHtmlPat ++ '\n' :: (c0 :: body') ++ ['\n', '`', '`']) ++ ['`'] := by
          simp [fencePat]
        rw [he, List.getLast?_concat]
      have hts : trimStart (fenceHtmlPat ++ '\n' :: (c0 :: body') ++ '\n' :: fencePat) =
          fenceHtmlPat ++ '\n' :: (c0 :: body') ++ '\n' :: fencePat :=
        trimStart_eq_self '`' _ rfl hwsBt
      rw [trimBoth, hts]
      exact trimEnd_of_getLast _ hlastX hwsBt
    have h2 : fenceHtmlPat.isPrefixOf
        (fenceHtmlPat ++ '\n' :: (c0 :: body') ++ '\n' :: fencePat) = true := by
      rw [List.isPrefixOf_iff_prefix]
      exact List.prefix_append _ _
    have h3 : (fenceHtmlPat ++ '\n' :: (c0 :: body') ++ '\n' :: fencePat).drop 7 =
        '\n' :: ((c0 :: body') ++ '\n' :: fencePat) := rfl
    have h4 : trimStart ('\n' :: ((c0 :: body') ++ '\n' :: fencePat)) =
        (c0 :: body') ++ '\n' :: fencePat := by
      rw [trimStart_cons_ws hwsNl, List.cons_append, trimStart_cons_not_ws hc0]
    have h5 : ¬(fencePat.isPrefixOf ((c0 :: body') ++ '\n' :: fencePat) = true) := by
      have : fencePat.isPrefixOf ((c0 :: body') ++ '\n' :: fencePat) = false := by
        simp [fencePat, List.isPrefixOf]
        intro h
        exact absurd h.symm hc0b
      rw [this]
      exact Bool.false_ne_true
    have h6 : fencePat.reverse.isPrefixOf (((c0 :: body') ++ '\n' :: fencePat).reverse) = true := by
      rw [List.isPrefixOf_iff_prefix,
        show (c0 :: body') ++ '\n' :: fencePat = ((c0 :: body') ++ ['\n']) ++ fencePat by simp,
        List.reverse_append]
      exact List.prefix_append _ _
    have h7 : ((c0 :: body') ++ '\n' :: fencePat).take
        (((c0 :: body') ++ '\n' :: fencePat).length - 3) = (c0 :: body') ++ ['\n'] := by
      rw [show (c0 :: body') ++ '\n' :: fencePat = ((c0 :: body') ++ ['\n']) ++ fencePat by simp]
      rw [List.length_append]
      rw [show ((c0 :: body') ++ ['\n']).length + fencePat.length - 3 =
        ((c0 :: body') ++ ['\n']).length by simp [fencePat]]
      exact List.take_left _ _
    have h8 : trimEnd ((c0 :: body') ++ ['\n']) = c0 :: body' := by
      rw [trimEnd_append_ws hwsNl, trimEnd_of_getLast _ hlast hcL]
    simp only [cleanupHtml]
    rw [h1, if_pos h2, h3, h4, if_neg h5, if_pos h6, h7, h8]

/-- C8 witness: a stream wrapped in an html code fence is cleaned to its body,
the artifact completes, and the fence-stripping shape lemma applies to it. -/
theorem finalize_cleanup_spec_witness :
    (runArtifact { id := ['a'], styleName := [], html := [], status := .streaming }
        (taskSuccessOps ["```html\n<div>".toList, "</div>\n```".toList])).html =
      "<div></div>".toList ∧
    (runArtifact { id := ['a'], styleName := [], html := [], status := .streaming }
        (taskSuccessOps ["```html\n<div>".toList, "</div>\n```".toList])).status = .complete ∧
    cleanupHtml (fenceHtmlPat ++ '\n' :: ('<' :: "div></div>".toList) ++ '\n' :: fencePat) =
      '<' :: "div></div>".toList :=
  ⟨(finalize_cleanup_spec.1 ["```html\n<div>".toList, "</div>\n```".toList] _).trans rfl,
   (finalize_cleanup_spec.2.1 ["```html\n<div>".toList, "</div>\n```".toList] _).mpr (by decide),
   finalize_cleanup_spec.2.2.2 "div></div>".toList '<' '>' (by decide) (by decide) rfl (by decide)⟩

/-! ## Claim C10: the variation filter -/

/-- A found first-occurrence index is in range and holds the sought character. -/
theorem firstIdxOf_spec {c : Char} : ∀ {cs : List Char} {k : Nat},
    firstIdxOf c cs = some k → k < cs.length ∧ cs[k]? = some c := by
  intro cs
  induction cs with
  | nil => intro k h; simp [firstIdxOf] at h
  | cons x xs ih =>
    intro k h
    rw [firstIdxOf] at h
    by_cases hx : x = c
    · rw [if_pos hx] at h
      cases h
      simp [hx]
    · rw [if_neg hx] at h
      obtain ⟨k', hk', rfl⟩ := Option.map_eq_some'.mp h
      obtain ⟨h1, h2⟩ := ih hk'
      exact ⟨by simpa using h1, by simpa using h2⟩

/-- A found from-index occurrence is at or after the start, in range, and holds
the sought character. -/
theorem idxOfFrom_spec {b : List Char} {c : Char} {s k : Nat}
    (h : idxOfFrom b c s = some k) : s ≤ k ∧ k < b.length ∧ b[k]? = some c := by
  rw [idxOfFrom] at h
  obtain ⟨j, hj, rfl⟩ := Option.map_eq_some'.mp h
  obtain ⟨h1, h2⟩ := firstIdxOf_spec hj
  rw [List.length_drop] at h1
  rw [List.getElem?_drop] at h2
  exact ⟨by omega, by omega, by rw [show j + s = s + j by omega]; exact h2⟩

/-- The scanning loop only reports an index after the start and inside the
scanned suffix. -/
theorem scanGo_some_bounds : ∀ (cs : List Char) (i : Nat) (cnt : Int) (s e : Nat),
    scanGo cs i cnt s = some e → s < e ∧ i ≤ e ∧ e < i + cs.length := by
  intro cs
  induction cs with
  | nil => intro i cnt s e h; simp [scanGo] at h
  | cons x xs ih =>
    intro i cnt s e h
    rw [scanGo] at h
    by_cases hc : cnt + braceDelta x = 0 ∧ i > s
    · rw [if_pos hc] at h
      cases h
      exact ⟨hc.2, le_refl _, by simp⟩
    · rw [if_neg hc] at h
      obtain ⟨h1, h2, h3⟩ := ih (i + 1) _ s e h
      exact ⟨h1, by omega, by simp; omega⟩

/-- A reported end of a balanced span lies strictly between the start and the
end of the buffer. -/
theorem findEnd_bounds {b : List Char} {s e : Nat} (h : findEnd b s = some e) :
    s < e ∧ e < b.length := by
  rw [findEnd] at h
  have hs : s ≤ b.length := by
    by_contra hgt
    rw [List.drop_eq_nil_of_le (by omega)] at h
    simp [scanGo] at h
  obtain ⟨h1, h2, h3⟩ := scanGo_some_bounds _ _ _ _ _ h
  rw [List.length_drop] at h3
  exact ⟨h1, by omega⟩

/-- The result of a successful top-level parse comes from `parseVal` with only
whitespace left over. -/
theorem parse_eq_some {cs : List Char} {v : Json} (h : Json.parse cs = some v) :
    ∃ r, parseVal (cs.length + 1) cs = some (v, r) ∧ skipWs r = [] := by
  rw [Json.parse] at h
  cases hp : parseVal (cs.length + 1) cs with
  | none => rw [hp] at h; simp at h
  | some p =>
    obtain ⟨v1, r1⟩ := p
    rw [hp] at h
    simp only [] at h
    by_cases hr : skipWs r1 = []
    · rw [if_pos hr] at h
      cases h
      exact ⟨r1, rfl, hr⟩
    · rw [if_neg hr] at h
      simp at h

/-- `parseObjTail` only produces objects. -/
theorem parseObjTail_obj {pv : List Char → Option (Json × List Char)} {cs : List Char}
    {p : Json × List Char} (h : parseObjTail pv cs = some p) : ∃ fs, p.1 = .obj fs := by
  rw [parseObjTail.eq_def] at h
  split at h
  · cases h; exact ⟨[], rfl⟩
  · obtain ⟨q, hq1, hq2⟩ := Option.map_eq_some'.mp h
    exact ⟨q.1, by rw [← hq2]⟩

/-- A text that begins with an opening brace parses, when it parses at all, to
an object value. -/
theorem parse_brace_obj {t : List Char} {v : Json} (h : Json.parse ('{' :: t) = some v) :
    ∃ fs, v = .obj fs := by
  obtain ⟨r, hp, _⟩ := parse_eq_some h
  rw [show parseVal (('{' :: t).length + 1) ('{' :: t) =
    parseObjTail (parseVal (('{' :: t).length)) (skipWs t) from rfl] at hp
  exact parseObjTail_obj hp

/-- Every value yielded by the scanning loop, when started at an opening brace,
is an object: candidate spans always begin at a `{`. -/
theorem loopFrom_obj : ∀ (fuel : Nat) (b : List Char) (s : Nat),
    b[s]? = some '{' → ∀ v ∈ (loopFrom fuel b s).1, ∃ fs, v = .obj fs := by
  intro fuel
  induction fuel with
  | zero => intro b s _ v hv; simp [loopFrom] at hv
  | succ fuel ih =>
    intro b s hbs v hv
    rw [loopFrom] at hv
    cases hfe : findEnd b s with
    | none => rw [hfe] at hv; simp at hv
    | some e =>
      rw [hfe] at hv
      dsimp only at hv
      obtain ⟨hse, heb⟩ := findEnd_bounds hfe
      have hsb : s < b.length := by omega
      have hdrop : b.drop s = '{' :: b.drop (s + 1) := by
        have h1 := List.drop_eq_getElem_cons hsb
        have h2 : b[s] = '{' := (List.getElem?_eq_some.mp hbs).2
        rw [h2] at h1
        exact h1
      have hspan : (b.drop s).take (e + 1 - s) = '{' :: (b.drop (s + 1)).take (e - s) := by
        rw [hdrop, show e + 1 - s = (e - s) + 1 by omega]
        rfl
      rw [hspan] at hv
      cases hpar : Json.parse ('{' :: (b.drop (s + 1)).take (e - s)) with
      | some w =>
        rw [hpar] at hv
        cases hfi : firstIdxOf '{' (b.drop (e + 1)) with
        | none =>
          rw [hfi] at hv
          simp at hv
          subst hv
          exact parse_brace_obj hpar
        | some s' =>
          rw [hfi] at hv
          simp at hv
          rcases hv with rfl | hv
          · exact parse_brace_obj hpar
          · exact ih _ _ (firstIdxOf_spec hfi).2 v hv
      | none =>
        rw [hpar] at hv
        cases hio : idxOfFrom b '{' (s + 1) with
        | none => rw [hio] at hv; simp at hv
        | some s' =>
          rw [hio] at hv
          exact ih _ _ (idxOfFrom_spec hio).2.2 v hv

/-- Every value yielded by the stream decoder is an object. -/
theorem parseJsonStream_obj (chunks : List (List Char)) :
    ∀ v ∈ parseJsonStream chunks, ∃ fs, v = .obj fs := by
  suffices h : ∀ (chunks : List (List Char)) (acc : List Json) (buf : List Char),
      (∀ v ∈ acc, ∃ fs, v = Json.obj fs) →
      ∀ v ∈ (chunks.foldl streamStep (acc, buf)).1, ∃ fs, v = Json.obj fs by
    intro v hv
    exact h chunks [] [] (fun w hw => absurd hw (List.not_mem_nil w)) v hv
  intro chunks
  induction chunks with
  | nil => intro acc buf hacc v hv; exact hacc v hv
  | cons c t ih =>
    intro acc buf hacc v hv
    rw [List.foldl_cons] at hv
    refine ih _ _ ?_ v hv
    intro w hw
    simp only [streamStep] at hw
    rcases List.mem_append.mp hw with hw | hw
    · exact hacc w hw
    · rw [feedBuffer] at hw
      cases hfi : firstIdxOf '{' (buf ++ c) with
      | none => rw [hfi] at hw; simp at hw
      | some s =>
        rw [hfi] at hw
        exact loopFrom_obj _ _ _ (firstIdxOf_spec hfi).2 w hw

/-- C10: a decoded value is appended to the variation list exactly when both
its `name` and `html` fields are truthy; every decoded value (always an
object) missing either field, or carrying an empty string in it, is discarded. -/
theorem variationFilter_spec (chunks : List (List Char)) :
    (∀ v, v ∈ collectVariations chunks ↔ v ∈ parseJsonStream chunks ∧ keepVariation v = true) ∧
    (∀ v, v ∈ parseJsonStream chunks → ∃ fs, v = Json.obj fs) ∧
    (∀ v, v ∈ parseJsonStream chunks →
      (getField v "name".toList = none ∨ getField v "name".toList = some (.str []) ∨
       getField v "html".toList = none ∨ getField v "html".toList = some (.str [])) →
      v ∉ collectVariations chunks) := by
  refine ⟨?_, parseJsonStream_obj chunks, ?_⟩
  · intro v
    simp [collectVariations, List.mem_filter]
  · intro v _ hbad hmem
    rw [collectVariations, List.mem_filter] at hmem
    have hkeep := hmem.2
    rw [keepVariation, Bool.and_eq_true] at hkeep
    obtain ⟨hk1, hk2⟩ := hkeep
    rcases hbad with h | h | h | h
    · rw [h] at hk1; simp [jsTruthy] at hk1
    · rw [h] at hk1; simp [jsTruthy] at hk1
    · rw [h] at hk2; simp [jsTruthy] at hk2
    · rw [h] at hk2; simp [jsTruthy] at hk2

/-- C10 witness: a decoded object with truthy `name` and `html` is kept;
decoding a concrete one-object stream and filtering retains it. -/
theorem variationFilter_spec_witness :
    Json.obj [("name".toList, .str ['a']), ("html".toList, .str ['b'])] ∈
      collectVariations ['{' :: "\"name\":\"a\",\"html\":\"b\"".toList ++ ['}']] := by
  have h := (variationFilter_spec ['{' :: "\"name\":\"a\",\"html\":\"b\"".toList ++ ['}']]).1
    (Json.obj [("name".toList, .str ['a']), ("html".toList, .str ['b'])])
  refine h.mpr ⟨?_, rfl⟩
  rw [show parseJsonStream ['{' :: "\"name\":\"a\",\"html\":\"b\"".toList ++ ['}']] =
    [Json.obj [("name".toList, .str ['a']), ("html".toList, .str ['b'])]] from rfl]
  exact List.mem_singleton.mpr rfl

/-! ## The decoder master lemmas (claims C1, C6, C7) -/

/-- Net depth of a cons. -/
theorem depthCnt_cons (x : Char) (l : List Char) :
    depthCnt (x :: l) = braceDelta x + depthCnt l := by
  simp [depthCnt]

/-- Net depth of an append. -/
theorem depthCnt_append (a b : List Char) : depthCnt (a ++ b) = depthCnt a + depthCnt b := by
  simp [depthCnt]

/-- Net depth of a singleton. -/
theorem depthCnt_singleton (x : Char) : depthCnt [x] = braceDelta x := by
  simp [depthCnt]

/-- The scan reports nothing when no position satisfies the stop condition. -/
theorem scanGo_eq_none : ∀ (cs : List Char) (i : Nat) (cnt : Int) (s : Nat),
    (∀ k, k < cs.length → ¬(cnt + depthCnt (cs.take (k + 1)) = 0 ∧ i + k > s)) →
    scanGo cs i cnt s = none := by
  intro cs
  induction cs with
  | nil => intro i cnt s _; rfl
  | cons x xs ih =>
    intro i cnt s h
    rw [scanGo]
    rw [if_neg ?_]
    · refine ih (i + 1) (cnt + braceDelta x) s ?_
      intro k hk hbad
      refine h (k + 1) (by simpa using hk) ⟨?_, by omega⟩
      rw [show (x :: xs).take (k + 1 + 1) = x :: xs.take (k + 1) from rfl, depthCnt_cons]
      have hb := hbad.1
      omega
    · intro hbad
      refine h 0 (by simp) ⟨?_, by omega⟩
      rw [show (x :: xs).take (0 + 1) = [x] from rfl, depthCnt_singleton]
      have hb := hbad.1
      omega

/-- The scan reports the first position where the count returns to zero. -/
theorem scanGo_eq_some : ∀ (cs : List Char) (i : Nat) (cnt : Int) (s k : Nat),
    k < cs.length → cnt + depthCnt (cs.take (k + 1)) = 0 → i + k > s →
    (∀ k', k' < k → ¬(cnt + depthCnt (cs.take (k' + 1)) = 0 ∧ i + k' > s)) →
    scanGo cs i cnt s = some (i + k) := by
  intro cs
  induction cs with
  | nil => intro i cnt s k hk; simp at hk
  | cons x xs ih =>
    intro i cnt s k hk hz hgt hmin
    rw [scanGo]
    cases k with
    | zero =>
      rw [show (x :: xs).take (0 + 1) = [x] from rfl, depthCnt_singleton] at hz
      rw [if_pos ⟨by omega, by omega⟩]
      simp
    | succ k' =>
      rw [show (x :: xs).take (k' + 1 + 1) = x :: xs.take (k' + 1) from rfl, depthCnt_cons] at hz
      rw [if_neg ?_]
      · rw [show i + (k' + 1) = (i + 1) + k' by omega]
        refine ih (i + 1) (cnt + braceDelta x) s k' (by simpa using hk) (by omega) (by omega) ?_
        intro k'' hk'' hbad
        refine hmin (k'' + 1) (by omega) ⟨?_, by omega⟩
        rw [show (x :: xs).take (k'' + 1 + 1) = x :: xs.take (k'' + 1) from rfl, depthCnt_cons]
        have hb := hbad.1
        omega
      · intro hbad
        refine hmin 0 (by omega) ⟨?_, by omega⟩
        rw [show (x :: xs).take (0 + 1) = [x] from rfl, depthCnt_singleton]
        have hb := hbad.1
        omega

/-- Unpacking of the scanner-clean predicate. -/
theorem scanClean_spec {t : List Char} (h : scanClean t = true) :
    2 ≤ t.length ∧ t.head? = some '{' ∧ depthCnt t = 0 ∧
      ∀ j, 0 < j → j < t.length → 1 ≤ depthCnt (t.take j) := by
  rw [scanClean.eq_def] at h
  split at h
  case h_2 => exact absurd h (by simp)
  case h_1 cs rest =>
    rw [Bool.and_eq_true, decide_eq_true_iff, List.all_eq_true] at h
    obtain ⟨hdep, hall⟩ := h
    have hpre : ∀ j, 0 < j → j < ('{' :: rest).length → 1 ≤ depthCnt (('{' :: rest).take j) := by
      intro j hj0 hjlen
      have hmem : j - 1 ∈ List.range (('{' :: rest).length - 1) := by
        rw [List.mem_range]
        omega
      have := hall _ hmem
      rw [decide_eq_true_iff] at this
      rw [show j - 1 + 1 = j by omega] at this
      exact this
    refine ⟨?_, rfl, hdep, hpre⟩
    cases rest with
    | nil => simp [depthCnt, braceDelta] at hdep
    | cons y ys => simp

/-- On a buffer of the form `junk ++ t ++ rest` with `t` scanner-clean, the
scan started at the end of `junk` stops exactly at the closing brace of `t`. -/
theorem findEnd_clean {t : List Char} (junk rest : List Char) (h : scanClean t = true) :
    findEnd (junk ++ t ++ rest) junk.length = some (junk.length + (t.length - 1)) := by
  obtain ⟨hlen, _, hdep, hpre⟩ := scanClean_spec h
  rw [findEnd, List.append_assoc, List.drop_left]
  refine scanGo_eq_some (t ++ rest) junk.length 0 junk.length (t.length - 1) ?_ ?_ ?_ ?_
  · rw [List.length_append]
    omega
  · rw [show t.length - 1 + 1 = t.length by omega,
      List.take_append_of_le_length (le_refl _), List.take_length]
    omega
  · omega
  · intro k' hk' hbad
    have htk : (t ++ rest).take (k' + 1) = t.take (k' + 1) :=
      List.take_append_of_le_length (by omega)
    rw [htk] at hbad
    have := hpre (k' + 1) (by omega) (by omega)
    omega

/-- On a proper prefix of a scanner-clean text the scan finds no end: the
count never returns to zero before the closing brace. -/
theorem findEnd_partial {t p : List Char} (h : scanClean t = true) (hp : p <+: t)
    (hlen : p.length < t.length) : findEnd p 0 = none := by
  obtain ⟨_, _, _, hpre⟩ := scanClean_spec h
  rw [findEnd, List.drop_zero]
  refine scanGo_eq_none p 0 0 0 ?_
  intro k hk hbad
  have hptake : p = t.take p.length := List.prefix_iff_eq_take.mp hp
  have htk : p.take (k + 1) = t.take (k + 1) := by
    rw [hptake, List.take_take]
    congr 1
    omega
  rw [htk] at hbad
  have := hpre (k + 1) (by omega) (by omega)
  omega

/-- The first character, when it is the sought one, is found at index zero. -/
theorem firstIdxOf_head {c : Char} {l : List Char} (h : l.head? = some c) :
    firstIdxOf c l = some 0 := by
  cases l with
  | nil => simp at h
  | cons x xs =>
    simp at h
    rw [firstIdxOf, if_pos h]

/-- The scanning loop's result does not depend on the fuel, as long as the
fuel exceeds the distance from the start to the end of the buffer. -/
theorem loopFrom_fuel_eq : ∀ (n f1 f2 : Nat) (b : List Char) (s : Nat),
    b.length - s ≤ n → b.length - s < f1 → b.length - s < f2 →
    loopFrom f1 b s = loopFrom f2 b s := by
  intro n
  induction n using Nat.strong_induction_on with
  | _ n ih =>
    intro f1 f2 b s hn h1 h2
    cases f1 with
    | zero => omega
    | succ g1 =>
      cases f2 with
      | zero => omega
      | succ g2 =>
        rw [loopFrom, loopFrom]
        cases hfe : findEnd b s with
        | none => rfl
        | some e =>
          dsimp only
          obtain ⟨hse, heb⟩ := findEnd_bounds hfe
          cases hpar : Json.parse ((b.drop s).take (e + 1 - s)) with
          | some v =>
            dsimp only
            cases hfi : firstIdxOf '{' (b.drop (e + 1)) with
            | none => rfl
            | some s' =>
              dsimp only
              obtain ⟨hs', _⟩ := firstIdxOf_spec hfi
              rw [List.length_drop] at hs'
              have heq : loopFrom g1 (b.drop (e + 1)) s' = loopFrom g2 (b.drop (e + 1)) s' := by
                refine ih (b.length - s - 1) (by omega) g1 g2 _ s' ?_ ?_ ?_ <;>
                  rw [List.length_drop] <;> omega
              rw [heq]
          | none =>
            dsimp only
            cases hio : idxOfFrom b '{' (s + 1) with
            | none => rfl
            | some s' =>
              dsimp only
              obtain ⟨hs1, hs2, _⟩ := idxOfFrom_spec hio
              exact ih (b.length - s - 1) (by omega) g1 g2 b s' (by omega) (by omega) (by omega)

/-- Resetting the fuel of the scanning loop to its canonical value. -/
theorem loopFrom_reset {f : Nat} {b : List Char} {s : Nat} (h : b.length - s < f) :
    loopFrom f b s = loopFrom (b.length + 1) b s :=
  loopFrom_fuel_eq (b.length - s) f (b.length + 1) b s (le_refl _) h (by omega)

/-- Inversion of `cleanParses` on a leading text. -/
theorem cleanParses_cons_inv {t : List Char} {ts : List (List Char)} {vs : List Json}
    (h : cleanParses (t :: ts) vs) :
    ∃ v vs', vs = v :: vs' ∧ Json.parse t = some v ∧ scanClean t = true ∧ cleanParses ts vs' := by
  cases h with
  | cons h1 h2 => exact ⟨_, _, rfl, h1.1, h1.2, h2⟩

/-- Inversion of `cleanParses` on the empty text list. -/
theorem cleanParses_nil_inv {vs : List Json} (h : cleanParses [] vs) : vs = [] := by
  cases h
  rfl

/-- A nonempty prefix shares its head with the longer list. -/
theorem head_of_pfx {b c : List Char} (h : b <+: c) (hb : b ≠ []) : c.head? = b.head? := by
  obtain ⟨w, rfl⟩ := h
  cases b with
  | nil => exact absurd rfl hb
  | cons x xs => rfl

/-- A nonempty prefix of the flattened stream starts with an opening brace. -/
theorem clean_flatten_head {ts : List (List Char)} {vs : List Json} {b : List Char}
    (h : cleanParses ts vs) (hb : b <+: ts.flatten) (hne : b ≠ []) : b.head? = some '{' := by
  cases ts with
  | nil =>
    rw [List.flatten_nil, List.prefix_nil] at hb
    exact absurd hb hne
  | cons t ts' =>
    obtain ⟨v, vs', rfl, _, hc, _⟩ := cleanParses_cons_inv h
    obtain ⟨_, hhead, _, _⟩ := scanClean_spec hc
    rw [← head_of_pfx hb hne, List.flatten_cons]
    cases t with
    | nil => simp at hhead
    | cons x xs => simp at hhead; rw [List.cons_append]; simpa using hhead

/-- Splitting a prefix of an append at the boundary of the left part. -/
theorem pfx_split {b t u : List Char} (hb : b <+: t ++ u) (hlen : t.length ≤ b.length) :
    ∃ b', b = t ++ b' ∧ b' <+: u := by
  have htb : t <+: b :=
    List.prefix_of_prefix_length_le (List.prefix_append t u) hb hlen
  obtain ⟨b', rfl⟩ := htb
  exact ⟨b', rfl, (List.prefix_append_right_inj t).mp hb⟩

/-- The value/buffer decomposition produced by one run of the scanning loop on
a prefix of a clean stream: the loop consumes exactly the complete leading
object texts, yields their values in order, and leaves the residual proper
prefix of the next object text in the buffer. -/
theorem loopFrom_decomposes : ∀ (ts : List (List Char)) (vs : List Json) (b : List Char),
    cleanParses ts vs → b <+: ts.flatten → b ≠ [] →
    ∃ ts₁ ts₂ vs₁ vs₂ r,
      ts = ts₁ ++ ts₂ ∧ vs = vs₁ ++ vs₂ ∧ cleanParses ts₁ vs₁ ∧ cleanParses ts₂ vs₂ ∧
      loopFrom (b.length + 1) b 0 = (vs₁, r) ∧ b = ts₁.flatten ++ r ∧
      ((ts₂ = [] ∧ r = []) ∨
        ∃ t2 ts₂', ts₂ = t2 :: ts₂' ∧ r.length < t2.length ∧ r <+: t2) := by
  intro ts
  induction ts with
  | nil =>
    intro vs b _ hb hne
    rw [List.flatten_nil, List.prefix_nil] at hb
    exact absurd hb hne
  | cons t ts' ih =>
    intro vs b h hb hne
    obtain ⟨v, vs', rfl, hp, hc, h'⟩ := cleanParses_cons_inv h
    obtain ⟨hlen2, hhead, _, _⟩ := scanClean_spec hc
    rw [List.flatten_cons] at hb
    by_cases hble : t.length ≤ b.length
    · obtain ⟨b2, rfl, hb2⟩ := pfx_split hb hble
      have hfe : findEnd (t ++ b2) 0 = some (t.length - 1) := by
        have h0 := findEnd_clean [] b2 hc
        simpa using h0
      have hspan : ((t ++ b2).drop 0).take (t.length - 1 + 1 - 0) = t := by
        rw [List.drop_zero, show t.length - 1 + 1 - 0 = t.length by omega, List.take_left]
      have hdrop2 : (t ++ b2).drop (t.length - 1 + 1) = b2 := by
        rw [show t.length - 1 + 1 = t.length by omega, List.drop_left]
      by_cases hb2e : b2 = []
      · subst hb2e
        have hloop : loopFrom ((t ++ []).length + 1) (t ++ []) 0 = ([v], []) := by
          rw [loopFrom, hfe]
          dsimp only
          rw [hspan, hp]
          dsimp only
          rw [hdrop2]
          rfl
        refine ⟨[t], ts', [v], vs', [], rfl, rfl,
          List.Forall₂.cons ⟨hp, hc⟩ List.Forall₂.nil, h', hloop, by simp, ?_⟩
        cases ts' with
        | nil => exact Or.inl ⟨rfl, rfl⟩
        | cons t2 ts₂' =>
          obtain ⟨_, _, _, _, hc2, _⟩ := cleanParses_cons_inv h'
          obtain ⟨hl2, _, _, _⟩ := scanClean_spec hc2
          exact Or.inr ⟨t2, ts₂', rfl, by simp only [List.length_nil]; omega, List.nil_prefix⟩
      · have hbh : b2.head? = some '{' := clean_flatten_head h' hb2 hb2e
        have hfi : firstIdxOf '{' b2 = some 0 := firstIdxOf_head hbh
        obtain ⟨ts₁', ts₂', vs₁', vs₂', r', ht', hv', hc1', hc2', hloop', heq', hres'⟩ :=
          ih vs' b2 h' hb2 hb2e
        have hloop : loopFrom ((t ++ b2).length + 1) (t ++ b2) 0 = (v :: vs₁', r') := by
          rw [loopFrom, hfe]
          dsimp only
          rw [hspan, hp]
          dsimp only
          rw [hdrop2, hfi]
          dsimp only
          rw [loopFrom_reset (by rw [List.length_append]; omega), hloop']
        refine ⟨t :: ts₁', ts₂', v :: vs₁', vs₂', r', by rw [ht']; rfl, by rw [hv']; rfl,
          List.Forall₂.cons ⟨hp, hc⟩ hc1', hc2', hloop, ?_, hres'⟩
        rw [List.flatten_cons, List.append_assoc, ← heq']
    · have hbt : b <+: t := by
        refine List.prefix_of_prefix_length_le hb (List.prefix_append t _) (by omega)
      have hfe : findEnd b 0 = none := findEnd_partial hc hbt (by omega)
      have hloop : loopFrom (b.length + 1) b 0 = ([], b) := by
        rw [loopFrom, hfe]
      exact ⟨[], t :: ts', [], v :: vs', b, rfl, rfl, List.Forall₂.nil,
        List.Forall₂.cons ⟨hp, hc⟩ h', hloop, by simp,
        Or.inr ⟨t, ts', rfl, by omega, hbt⟩⟩

/-- The value/buffer decomposition of one buffer processing step on any prefix
of a clean stream. -/
theorem feedBuffer_decomposes (ts : List (List Char)) (vs : List Json) (b : List Char)
    (h : cleanParses ts vs) (hb : b <+: ts.flatten) :
    ∃ ts₁ ts₂ vs₁ vs₂ r,
      ts = ts₁ ++ ts₂ ∧ vs = vs₁ ++ vs₂ ∧ cleanParses ts₁ vs₁ ∧ cleanParses ts₂ vs₂ ∧
      feedBuffer b = (vs₁, r) ∧ b = ts₁.flatten ++ r ∧
      ((ts₂ = [] ∧ r = []) ∨
        ∃ t2 ts₂', ts₂ = t2 :: ts₂' ∧ r.length < t2.length ∧ r <+: t2) := by
  by_cases hbe : b = []
  · subst hbe
    refine ⟨[], ts, [], vs, [], rfl, rfl, List.Forall₂.nil, h, rfl, rfl, ?_⟩
    cases ts with
    | nil => exact Or.inl ⟨rfl, rfl⟩
    | cons t2 ts₂' =>
      obtain ⟨_, _, _, _, hc2, _⟩ := cleanParses_cons_inv h
      obtain ⟨hl2, _, _, _⟩ := scanClean_spec hc2
      exact Or.inr ⟨t2, ts₂', rfl, by simp only [List.length_nil]; omega, List.nil_prefix⟩
  · have hbh : b.head? = some '{' := clean_flatten_head h hb hbe
    have hfb : feedBuffer b = loopFrom (b.length + 1) b 0 := by
      rw [feedBuffer, firstIdxOf_head hbh]
    obtain ⟨ts₁, ts₂, vs₁, vs₂, r, h1, h2, h3, h4, h5, h6, h7⟩ :=
      loopFrom_decomposes ts vs b h hb hbe
    exact ⟨ts₁, ts₂, vs₁, vs₂, r, h1, h2, h3, h4, hfb.trans h5, h6, h7⟩

/-- Folding any fragment sequence whose total text is a prefix of a clean
stream: the decoder state accumulates exactly the values of the complete
leading objects, with the residual prefix in the buffer. -/
theorem streamFold_decomposes : ∀ (chunks ts : List (List Char)) (vs acc : List Json)
    (buf : List Char),
    cleanParses ts vs → (buf ++ chunks.flatten) <+: ts.flatten →
    (buf = [] ∨ ∃ t2 ts', ts = t2 :: ts' ∧ buf.length < t2.length ∧ buf <+: t2) →
    ∃ ts₁ ts₂ vs₁ vs₂ r,
      ts = ts₁ ++ ts₂ ∧ vs = vs₁ ++ vs₂ ∧ cleanParses ts₁ vs₁ ∧ cleanParses ts₂ vs₂ ∧
      chunks.foldl streamStep (acc, buf) = (acc ++ vs₁, r) ∧
      buf ++ chunks.flatten = ts₁.flatten ++ r ∧
      (r = [] ∨ ∃ t2 ts₂', ts₂ = t2 :: ts₂' ∧ r.length < t2.length ∧ r <+: t2) := by
  intro chunks
  induction chunks with
  | nil =>
    intro ts vs acc buf h hpfx hres
    refine ⟨[], ts, [], vs, buf, rfl, rfl, List.Forall₂.nil, h, by simp, by simp, ?_⟩
    rcases hres with rfl | ⟨t2, ts', rfl, hlen, hp⟩
    · exact Or.inl rfl
    · exact Or.inr ⟨t2, ts', rfl, hlen, hp⟩
  | cons c t ih =>
    intro ts vs acc buf h hpfx hres
    have hb : (buf ++ c) <+: ts.flatten := by
      refine List.IsPrefix.trans ?_ hpfx
      rw [List.flatten_cons, ← List.append_assoc]
      exact List.prefix_append _ _
    obtain ⟨tsA, tsB, vsA, vsB, r1, hts, hvs, hcA, hcB, hfeed, heq, hresB⟩ :=
      feedBuffer_decomposes ts vs (buf ++ c) h hb
    have hstep : streamStep (acc, buf) c = (acc ++ vsA, r1) := by
      simp only [streamStep, hfeed]
    have hpfx' : r1 ++ t.flatten <+: tsB.flatten := by
      have h1 : (buf ++ c) ++ t.flatten <+: tsA.flatten ++ tsB.flatten := by
        rw [← List.flatten_append, ← hts, List.append_assoc]
        rw [List.flatten_cons] at hpfx
        exact hpfx
      rw [heq, List.append_assoc] at h1
      exact (List.prefix_append_right_inj tsA.flatten).mp h1
    have hres' : r1 = [] ∨ ∃ t2 ts', tsB = t2 :: ts' ∧ r1.length < t2.length ∧ r1 <+: t2 := by
      rcases hresB with ⟨_, rfl⟩ | ⟨t2, ts', htt, hl, hp⟩
      · exact Or.inl rfl
      · exact Or.inr ⟨t2, ts', htt, hl, hp⟩
    obtain ⟨ts₁', ts₂', vs₁', vs₂', r', hts', hvs', hc1', hc2', hfold', heq', hres''⟩ :=
      ih tsB vsB (acc ++ vsA) r1 hcB hpfx' hres'
    refine ⟨tsA ++ ts₁', ts₂', vsA ++ vs₁', vs₂', r', ?_, ?_,
      List.rel_append hcA hc1', hc2', ?_, ?_, hres''⟩
    · rw [hts, hts', List.append_assoc]
    · rw [hvs, hvs', List.append_assoc]
    · rw [List.foldl_cons, hstep, hfold', List.append_assoc]
    · rw [List.flatten_cons, List.flatten_append, ← List.append_assoc, heq,
        List.append_assoc, heq', ← List.append_assoc]

/-- C1 (amended): for every stream of object texts that each parse and are
scanner-clean (no brace characters inside string literals), and every way of
splitting their concatenation into fragments — including splits inside string
literals — the decoder yields exactly the K parsed values in original order. -/
theorem parseJsonStream_complete (ts : List (List Char)) (vs : List Json)
    (chunks : List (List Char)) (h : cleanParses ts vs)
    (hsplit : chunks.flatten = ts.flatten) :
    parseJsonStream chunks = vs := by
  obtain ⟨ts₁, ts₂, vs₁, vs₂, r, hts, hvs, _, hc2, hfold, heq, hres⟩ :=
    streamFold_decomposes chunks ts vs [] [] h
      (by rw [List.nil_append, hsplit]) (Or.inl rfl)
  rw [List.nil_append] at heq hfold
  rw [parseJsonStream, hfold]
  dsimp only
  have hflat : ts₁.flatten ++ ts₂.flatten = ts₁.flatten ++ r := by
    rw [← List.flatten_append, ← hts, ← hsplit, heq]
  have hr : r = ts₂.flatten := (List.append_cancel_left hflat).symm
  rcases hres with rfl | ⟨t2, ts₂', hts2, hlen, _⟩
  · cases ts₂ with
    | nil =>
      rw [cleanParses_nil_inv hc2] at hvs
      rw [hvs, List.append_nil]
    | cons t2 ts₂' =>
      obtain ⟨_, _, _, _, hc, _⟩ := cleanParses_cons_inv hc2
      obtain ⟨hl2, _, _, _⟩ := scanClean_spec hc
      rw [List.flatten_cons] at hr
      have := congrArg List.length hr
      simp at this
      omega
  · rw [hts2, List.flatten_cons] at hr
    have := congrArg List.length hr
    simp at this
    omega

/-- C1 counterexample: the single well-formed object `{"a":"}"}` — a brace
inside a string literal — is valid JSON, yet the decoder yields nothing for
it: the brace counter closes the candidate span at the brace inside the
string, the parse of that span fails, and no further opening brace exists. -/
theorem parseJsonStream_complete_cx :
    Json.parse ('{' :: '"' :: 'a' :: '"' :: ':' :: '"' :: '}' :: '"' :: '}' :: []) =
      some (.obj [(['a'], .str ['}'])]) ∧
    parseJsonStream [('{' :: '"' :: 'a' :: '"' :: ':' :: '"' :: '}' :: '"' :: '}' :: [])] = [] ∧
    ([] : List Json) ≠ [Json.obj [(['a'], .str ['}'])]] :=
  ⟨rfl, rfl, by simp⟩

/-- C1 witness: two objects split into three fragments, one split landing in
the middle of a string literal, decode to exactly the two parsed values. -/
theorem parseJsonStream_complete_witness :
    parseJsonStream
      [('{' :: '"' :: 'a' :: '"' :: []), (':' :: '1' :: '}' :: '{' :: '"' :: 'b' :: '"' :: ':' :: '"' :: []),
        ('x' :: '"' :: '}' :: [])] =
      [Json.obj [(['a'], .num 1)], Json.obj [(['b'], .str ['x'])]] :=
  parseJsonStream_complete
    [('{' :: '"' :: 'a' :: '"' :: ':' :: '1' :: '}' :: []),
      ('{' :: '"' :: 'b' :: '"' :: ':' :: '"' :: 'x' :: '"' :: '}' :: [])]
    [Json.obj [(['a'], .num 1)], Json.obj [(['b'], .str ['x'])]]
    _
    (List.Forall₂.cons ⟨rfl, by decide⟩ (List.Forall₂.cons ⟨rfl, by decide⟩ List.Forall₂.nil))
    rfl

/-- Every text of a clean stream is scanner-clean. -/
theorem cleanParses_mem : ∀ {ts : List (List Char)} {vs : List Json} {t : List Char},
    cleanParses ts vs → t ∈ ts → scanClean t = true := by
  intro ts
  induction ts with
  | nil => intro vs t _ hm; simp at hm
  | cons x xs ih =>
    intro vs t h hm
    obtain ⟨v, vs', rfl, _, hc, h'⟩ := cleanParses_cons_inv h
    rcases List.mem_cons.mp hm with rfl | hm
    · exact hc
    · exact ih h' hm

/-- C7: when the fragment stream ends while the buffer holds a truncated
object — the total text is a clean stream of complete objects followed by a
proper nonempty prefix of a further object text — the decoder yields exactly
the complete objects' values and silently discards the trailing partial
object, yielding no value for it. -/
theorem parseJsonStream_truncation (ts : List (List Char)) (vs : List Json)
    (w p : List Char) (vw : Json) (chunks : List (List Char))
    (h : cleanParses ts vs) (hw : Json.parse w = some vw) (hwc : scanClean w = true)
    (hp : p <+: w) (hplen : p.length < w.length) (_hpne : p ≠ [])
    (hsplit : chunks.flatten = ts.flatten ++ p) :
    parseJsonStream chunks = vs := by
  have hcw : cleanParses (ts ++ [w]) (vs ++ [vw]) :=
    List.rel_append h (List.Forall₂.cons ⟨hw, hwc⟩ List.Forall₂.nil)
  have hpfx : ([] ++ chunks.flatten) <+: (ts ++ [w]).flatten := by
    rw [List.nil_append, hsplit, List.flatten_append,
      show ([w] : List (List Char)).flatten = w by simp]
    exact (List.prefix_append_right_inj ts.flatten).mpr hp
  obtain ⟨ts₁, ts₂, vs₁, vs₂, r, hts, hvs, hc1, hc2, hfold, heq, hres⟩ :=
    streamFold_decomposes chunks (ts ++ [w]) (vs ++ [vw]) [] [] hcw hpfx (Or.inl rfl)
  rw [List.nil_append] at heq hfold
  rw [parseJsonStream, hfold]
  dsimp only
  cases ts₂ with
  | nil =>
    rw [List.append_nil] at hts
    rcases hres with hre | ⟨t2, ts₂', habs, _⟩
    · subst hre
      rw [List.append_nil, ← hts, List.flatten_append,
        show ([w] : List (List Char)).flatten = w by simp, hsplit] at heq
      have hpw : p = w := List.append_cancel_left heq
      have := congrArg List.length hpw
      omega
    · simp at habs
  | cons t2 ts₂'' =>
    have hlts := congrArg List.length hts
    simp at hlts
    have hts1p : ts₁ <+: ts := by
      refine List.prefix_of_prefix_length_le ⟨t2 :: ts₂'', hts.symm⟩
        (List.prefix_append ts [w]) (by omega)
    obtain ⟨mid, rfl⟩ := hts1p
    have hmid : mid ++ [w] = t2 :: ts₂'' := by
      rw [List.append_assoc] at hts
      exact List.append_cancel_left hts
    cases mid with
    | nil =>
      have hlvs1 : vs.length = vs₁.length := by
        have l1 : ts₁.length = vs₁.length := List.Forall₂.length_eq hc1
        have l2 : (ts₁ ++ ([] : List (List Char))).length = vs.length :=
          List.Forall₂.length_eq h
        simp at l2
        omega
      exact (List.append_inj hvs hlvs1).1.symm
    | cons m mid' =>
      have hmclean : scanClean m = true := by
        refine cleanParses_mem h ?_
        simp
      obtain ⟨hml, _, _, _⟩ := scanClean_spec hmclean
      obtain ⟨hm2, hmr⟩ : t2 = m ∧ ts₂'' = mid' ++ [w] := by
        rw [List.cons_append] at hmid
        exact ⟨(List.cons.injEq _ _ _ _ ▸ hmid).1.symm, ((List.cons.injEq _ _ _ _).mp hmid).2.symm⟩
      have hreq : r = m ++ (mid'.flatten ++ p) := by
        rw [hsplit, List.flatten_append, List.flatten_cons] at heq
        rw [List.append_assoc, List.append_assoc] at heq
        have := List.append_cancel_left heq
        exact this.symm
      rcases hres with hre | ⟨t2', ts₂''', hcons, hrlen, _⟩
      · rw [hre] at hreq
        have := congrArg List.length hreq
        simp at this
        omega
      · have ht2' : t2' = m := by
          rw [← hm2]
          exact ((List.cons.injEq _ _ _ _).mp hcons).1.symm
        rw [ht2'] at hrlen
        have := congrArg List.length hreq
        simp at this
        omega

/-! ## Claim C6: skipping a malformed span -/

/-- Characters free of braces contribute nothing to the depth count. -/
theorem depthCnt_braceFree {l : List Char} (h : ∀ c ∈ l, c ≠ '{' ∧ c ≠ '}') :
    depthCnt l = 0 := by
  induction l with
  | nil => rfl
  | cons x xs ih =>
    rw [depthCnt_cons, ih (fun c hc => h c (List.mem_cons_of_mem x hc))]
    have hx := h x (List.mem_cons_self x xs)
    simp [braceDelta, hx.1, hx.2]

/-- A brace-balanced span with a brace-free interior is scanner-clean. -/
theorem scanClean_openMid {mid : List Char} (hmid : ∀ c ∈ mid, c ≠ '{' ∧ c ≠ '}') :
    scanClean ('{' :: mid ++ ['}']) = true := by
  change (decide (depthCnt ('{' :: mid ++ ['}']) = 0) &&
    (List.range (('{' :: mid ++ ['}']).length - 1)).all
      (fun k => decide (1 ≤ depthCnt (('{' :: mid ++ ['}']).take (k + 1))))) = true
  rw [Bool.and_eq_true, decide_eq_true_iff, List.all_eq_true]
  constructor
  · rw [depthCnt_append, depthCnt_cons, depthCnt_braceFree hmid, depthCnt_singleton]
    simp [braceDelta]
  · intro k hk
    rw [List.mem_range] at hk
    rw [decide_eq_true_iff]
    have hkm : k ≤ mid.length := by
      simp at hk
      omega
    rw [show ('{' :: mid ++ ['}']).take (k + 1) = '{' :: (mid ++ ['}']).take k from rfl]
    rw [depthCnt_cons]
    rw [List.take_append_of_le_length hkm]
    have : depthCnt (mid.take k) = 0 :=
      depthCnt_braceFree (fun c hc => hmid c (List.mem_of_mem_take hc))
    simp [braceDelta, this]

/-- First occurrence in an append whose left part lacks the character. -/
theorem firstIdxOf_append_of_not_mem {c : Char} : ∀ {l : List Char}, c ∉ l → ∀ (r : List Char),
    firstIdxOf c (l ++ r) = (firstIdxOf c r).map (· + l.length) := by
  intro l
  induction l with
  | nil =>
    intro _ r
    cases h : firstIdxOf c r <;> simp [h]
  | cons x xs ih =>
    intro hx r
    rw [List.cons_append, firstIdxOf,
      if_neg (fun he => hx (by rw [← he]; exact List.mem_cons_self x xs)),
      ih (fun hm => hx (List.mem_cons_of_mem x hm)) r]
    cases h : firstIdxOf c r
    · simp [h]
    · simp [h]
      omega

/-- C6 (amended): a malformed span of the form `{` + brace-free-interior + `}`
sitting between two well-formed scanner-clean objects is silently skipped —
the parse of the balanced candidate fails, the scan advances to the next
opening brace, and decoding still yields exactly the two objects' values in
order. -/
theorem parseJsonStream_skips_malformed (t1 t2 mid : List Char) (v1 v2 : Json)
    (h1 : Json.parse t1 = some v1) (hc1 : scanClean t1 = true)
    (h2 : Json.parse t2 = some v2) (hc2 : scanClean t2 = true)
    (hmid : ∀ c ∈ mid, c ≠ '{' ∧ c ≠ '}')
    (hbad : Json.parse (('{' :: mid) ++ ['}']) = none) :
    parseJsonStream [t1 ++ (('{' :: mid) ++ ['}']) ++ t2] = [v1, v2] := by
  obtain ⟨hl1, hh1, _, _⟩ := scanClean_spec hc1
  obtain ⟨hl2, hh2, _, _⟩ := scanClean_spec hc2
  have hmalc : scanClean (('{' :: mid) ++ ['}']) = true := scanClean_openMid hmid
  have hne1 : t1 ≠ [] := by
    intro he
    rw [he] at hl1
    simp at hl1
  have hne2 : t2 ≠ [] := by
    intro he
    rw [he] at hl2
    simp at hl2
  have hstep3 : loopFrom (((('{' :: mid) ++ ['}']) ++ t2).length + 1)
      ((('{' :: mid) ++ ['}']) ++ t2) (mid.length + 2) = ([v2], []) := by
    rw [loopFrom]
    have hfe3 : findEnd ((('{' :: mid) ++ ['}']) ++ t2) (mid.length + 2) =
        some (mid.length + 2 + (t2.length - 1)) := by
      have h0 := findEnd_clean (('{' :: mid) ++ ['}']) ([] : List Char) hc2
      rw [List.append_nil] at h0
      rw [show ((('{' :: mid) ++ ['}']).length) = mid.length + 2 by simp] at h0
      exact h0
    rw [hfe3]
    dsimp only
    have hdrop3 : ((('{' :: mid) ++ ['}']) ++ t2).drop (mid.length + 2) = t2 := by
      rw [show mid.length + 2 = (('{' :: mid) ++ ['}']).length by simp, List.drop_left]
    have harith3 : mid.length + 2 + (t2.length - 1) + 1 - (mid.length + 2) = t2.length := by
      omega
    rw [hdrop3, harith3, List.take_length, h2]
    dsimp only
    have hdropAll : ((('{' :: mid) ++ ['}']) ++ t2).drop (mid.length + 2 + (t2.length - 1) + 1) =
        [] := by
      apply List.drop_eq_nil_of_le
      simp
      omega
    rw [hdropAll]
    rfl
  have hstep2 : loopFrom (((('{' :: mid) ++ ['}']) ++ t2).length + 1)
      ((('{' :: mid) ++ ['}']) ++ t2) 0 = ([v2], []) := by
    rw [loopFrom]
    have hfe2 : findEnd ((('{' :: mid) ++ ['}']) ++ t2) 0 = some (mid.length + 1) := by
      have h0 := findEnd_clean ([] : List Char) t2 hmalc
      simp only [List.nil_append, List.length_nil, Nat.zero_add] at h0
      rw [show ((('{' :: mid) ++ ['}']).length - 1) = mid.length + 1 by simp] at h0
      exact h0
    rw [hfe2]
    dsimp only
    have hspan2 : (((('{' :: mid) ++ ['}']) ++ t2).drop 0).take (mid.length + 1 + 1 - 0) =
        ('{' :: mid) ++ ['}'] := by
      rw [List.drop_zero, show mid.length + 1 + 1 - 0 = (('{' :: mid) ++ ['}']).length by simp,
        List.take_left]
    rw [hspan2, hbad]
    dsimp only
    have hio : idxOfFrom ((('{' :: mid) ++ ['}']) ++ t2) '{' (0 + 1) = some (mid.length + 2) := by
      rw [idxOfFrom,
        show ((('{' :: mid) ++ ['}']) ++ t2).drop (0 + 1) = (mid ++ ['}']) ++ t2 from rfl]
      have hnm : '{' ∉ mid ++ ['}'] := by
        intro hm
        rcases List.mem_append.mp hm with hm | hm
        · exact (hmid _ hm).1 rfl
        · simp at hm
      rw [firstIdxOf_append_of_not_mem hnm t2, firstIdxOf_head hh2]
      simp
    rw [hio]
    dsimp only
    rw [loopFrom_reset (by simp; omega), hstep3]
  have hXhead : (t1 ++ (('{' :: mid) ++ ['}']) ++ t2).head? = some '{' := by
    rw [List.append_assoc, List.head?_append_of_ne_nil _ hne1]
    exact hh1
  have hstep1 : feedBuffer (t1 ++ (('{' :: mid) ++ ['}']) ++ t2) = ([v1, v2], []) := by
    rw [feedBuffer, firstIdxOf_head hXhead]
    dsimp only
    rw [loopFrom]
    have hfe1 : findEnd (t1 ++ (('{' :: mid) ++ ['}']) ++ t2) 0 = some (t1.length - 1) := by
      have h0 := findEnd_clean ([] : List Char) ((('{' :: mid) ++ ['}']) ++ t2) hc1
      simp only [List.nil_append, List.length_nil, Nat.zero_add] at h0
      rw [← List.append_assoc] at h0
      exact h0
    rw [hfe1]
    dsimp only
    have hspan1 : ((t1 ++ (('{' :: mid) ++ ['}']) ++ t2).drop 0).take (t1.length - 1 + 1 - 0) =
        t1 := by
      rw [List.drop_zero, show t1.length - 1 + 1 - 0 = t1.length by omega, List.append_assoc,
        List.take_left]
    rw [hspan1, h1]
    dsimp only
    have hdrop1 : (t1 ++ (('{' :: mid) ++ ['}']) ++ t2).drop (t1.length - 1 + 1) =
        (('{' :: mid) ++ ['}']) ++ t2 := by
      rw [show t1.length - 1 + 1 = t1.length by omega, List.append_assoc, List.drop_left]
    rw [hdrop1]
    rw [firstIdxOf_head (show ((('{' :: mid) ++ ['}']) ++ t2).head? = some '{' from rfl)]
    dsimp only
    rw [loopFrom_reset (by simp; omega), hstep2]
  rw [parseJsonStream, List.foldl_cons, List.foldl_nil]
  simp only [streamStep, List.nil_append]
  rw [hstep1]

/-- C6 counterexample: an unbalanced malformed middle — a bare extra `{` —
between two well-formed objects is not skipped: the brace counter never
returns to zero, so the second well-formed object is never yielded, contrary
to the claim's "(or unbalanced)". -/
theorem parseJsonStream_skips_malformed_cx :
    parseJsonStream
      [('{' :: '"' :: 'a' :: '"' :: ':' :: '1' :: '}' :: '{' :: '{' :: '"' :: 'b' :: '"' ::
        ':' :: '2' :: '}' :: [])] = [Json.obj [(['a'], .num 1)]] ∧
    parseJsonStream
      [('{' :: '"' :: 'a' :: '"' :: ':' :: '1' :: '}' :: '{' :: '{' :: '"' :: 'b' :: '"' ::
        ':' :: '2' :: '}' :: [])] ≠ [Json.obj [(['a'], .num 1)], Json.obj [(['b'], .num 2)]] := by
  constructor
  · rfl
  · intro h
    rw [show parseJsonStream
      [('{' :: '"' :: 'a' :: '"' :: ':' :: '1' :: '}' :: '{' :: '{' :: '"' :: 'b' :: '"' ::
        ':' :: '2' :: '}' :: [])] = [Json.obj [(['a'], .num 1)]] from rfl] at h
    simp at h

/-- C6 witness: a balanced but invalid `{oops}` between two objects is
skipped and both objects are decoded. -/
theorem parseJsonStream_skips_malformed_witness :
    parseJsonStream
      [('{' :: '"' :: 'a' :: '"' :: ':' :: '1' :: '}' :: []) ++
        (('{' :: ('o' :: 'o' :: 'p' :: 's' :: [])) ++ ['}']) ++
        ('{' :: '"' :: 'b' :: '"' :: ':' :: '2' :: '}' :: [])] =
      [Json.obj [(['a'], .num 1)], Json.obj [(['b'], .num 2)]] :=
  parseJsonStream_skips_malformed
    ('{' :: '"' :: 'a' :: '"' :: ':' :: '1' :: '}' :: [])
    ('{' :: '"' :: 'b' :: '"' :: ':' :: '2' :: '}' :: [])
    ('o' :: 'o' :: 'p' :: 's' :: [])
    (Json.obj [(['a'], .num 1)]) (Json.obj [(['b'], .num 2)])
    rfl (by decide) rfl (by decide) (by decide) rfl

/-- C7 witness: a concrete two-fragment stream that ends in the middle of a
second object yields only the first object's value. -/
theorem parseJsonStream_truncation_witness :
    parseJsonStream
      [('{' :: '"' :: 'a' :: '"' :: ':' :: '1' :: '}' :: []), ('{' :: '"' :: 'b' :: '"' :: [])] =
      [Json.obj [(['a'], .num 1)]] :=
  parseJsonStream_truncation
    [('{' :: '"' :: 'a' :: '"' :: ':' :: '1' :: '}' :: [])]
    [Json.obj [(['a'], .num 1)]]
    ('{' :: '"' :: 'b' :: '"' :: ':' :: '2' :: '}' :: [])
    ('{' :: '"' :: 'b' :: '"' :: [])
    (Json.obj [(['b'], .num 2)]) _
    (List.Forall₂.cons ⟨rfl, by decide⟩ List.Forall₂.nil)
    rfl (by decide) (by decide) (by decide) (by decide) rfl

/-! ## Claim C9: per-artifact failure isolation -/

/-- Every artifact mutation preserves the artifact's identity. -/
theorem applyArtOp_id (op : ArtOp) (a : Artifact) : (applyArtOp op a).id = a.id := by
  cases op <;> rfl

/-- Indexing through one store update. -/
theorem updSessions_getElem (sid aid : List Char) (op : ArtOp) (ss : List Session) (k : Nat) :
    (updSessions sid aid op ss)[k]? = (ss[k]?).map (fun sess =>
      if sess.id = sid then
        { sess with artifacts := sess.artifacts.map fun art =>
            if art.id = aid then applyArtOp op art else art }
      else sess) := by
  rw [updSessions, List.getElem?_map]

/-- A store run leaves sessions with a different id untouched. -/
theorem runTagged_other (sid : List Char) : ∀ (ops : List (List Char × ArtOp))
    (ss : List Session) (k : Nat) (s : Session), ss[k]? = some s → s.id ≠ sid →
    (runTagged sid ops ss)[k]? = some s := by
  intro ops
  induction ops with
  | nil => intro ss k s hk _; exact hk
  | cons t ops ih =>
    intro ss k s hk hne
    rw [runTagged, List.foldl_cons]
    refine ih (updSessions sid t.1 t.2 ss) k s ?_ hne
    rw [updSessions_getElem, hk]
    simp [hne]

/-- A store run preserves the number of sessions. -/
theorem runTagged_length (sid : List Char) : ∀ (ops : List (List Char × ArtOp))
    (ss : List Session), (runTagged sid ops ss).length = ss.length := by
  intro ops
  induction ops with
  | nil => intro ss; rfl
  | cons t ops ih =>
    intro ss
    rw [runTagged, List.foldl_cons]
    rw [show List.foldl (fun ss t => updSessions sid t.1 t.2 ss) (updSessions sid t.1 t.2 ss) ops =
      runTagged sid ops (updSessions sid t.1 t.2 ss) from rfl, ih, updSessions, List.length_map]

/-- A store run applies, inside the targeted session, exactly the fold of the
per-artifact updates. -/
theorem runTagged_target (sid : List Char) : ∀ (ops : List (List Char × ArtOp))
    (ss : List Session) (k : Nat) (s : Session), ss[k]? = some s → s.id = sid →
    (runTagged sid ops ss)[k]? = some
      { s with artifacts := ops.foldl (fun arts t =>
          arts.map (fun art => if art.id = t.1 then applyArtOp t.2 art else art)) s.artifacts } := by
  intro ops
  induction ops with
  | nil =>
    intro ss k s hk _
    rw [runTagged, List.foldl_nil, List.foldl_nil, hk]
  | cons t ops ih =>
    intro ss k s hk hsid
    rw [runTagged, List.foldl_cons, List.foldl_cons]
    have hk' : (updSessions sid t.1 t.2 ss)[k]? = some
        { s with artifacts :=
            (s.artifacts.map (fun art => if art.id = t.1 then applyArtOp t.2 art else art)) } := by
      rw [updSessions_getElem, hk]
      simp [hsid]
    exact ih (updSessions sid t.1 t.2 ss) k _ hk' hsid

/-- The per-session fold acts pointwise on the artifacts. -/
theorem artsFold_map : ∀ (ops : List (List Char × ArtOp)) (arts : List Artifact),
    ops.foldl (fun arts t =>
        arts.map (fun art => if art.id = t.1 then applyArtOp t.2 art else art)) arts =
      arts.map (artFold ops) := by
  intro ops
  induction ops with
  | nil =>
    intro arts
    rw [List.foldl_nil]
    exact (List.map_id arts).symm
  | cons t ops ih =>
    intro arts
    rw [List.foldl_cons, ih, List.map_map]
    rfl

/-- The fold of tagged mutations over one artifact applies exactly the
mutations addressed to it, in order: updates tagged for other artifacts do not
touch it. -/
theorem artFold_filter : ∀ (ops : List (List Char × ArtOp)) (a : Artifact),
    artFold ops a =
      runArtifact a ((ops.filter (fun t => decide (t.1 = a.id))).map (·.2)) := by
  intro ops
  induction ops with
  | nil => intro a; rfl
  | cons t ops ih =>
    intro a
    rw [artFold, List.foldl_cons,
      show List.foldl (fun x t => if x.id = t.1 then applyArtOp t.2 x else x)
        (if a.id = t.1 then applyArtOp t.2 a else a) ops =
        artFold ops (if a.id = t.1 then applyArtOp t.2 a else a) from rfl]
    by_cases h : t.1 = a.id
    · rw [if_pos h.symm, List.filter_cons, if_pos (by simpa using h)]
      rw [List.map_cons, runArtifact, List.foldl_cons]
      rw [show List.foldl (fun x op => applyArtOp op x) (applyArtOp t.2 a)
        ((ops.filter (fun t => decide (t.1 = a.id))).map (·.2)) =
        runArtifact (applyArtOp t.2 a) ((ops.filter (fun t => decide (t.1 = a.id))).map (·.2))
        from rfl]
      rw [ih (applyArtOp t.2 a)]
      have hfe : (fun u : List Char × ArtOp => decide (u.1 = (applyArtOp t.2 a).id)) =
          (fun u : List Char × ArtOp => decide (u.1 = a.id)) := by
        funext u
        rw [applyArtOp_id]
      rw [hfe]
    · rw [if_neg (fun he => h he.symm), List.filter_cons, if_neg (by simpa using h)]
      exact ih a

/-- Filtering an interleaving of three traces by a predicate that holds on the
first trace and fails on the other two recovers the first trace. -/
theorem interleave3_filter₁ {α : Type} (p : α → Bool) : ∀ {xs ys zs ws : List α},
    Interleave3 xs ys zs ws → (∀ x ∈ xs, p x = true) → (∀ y ∈ ys, p y = false) →
    (∀ z ∈ zs, p z = false) → ws.filter p = xs := by
  intro xs ys zs ws h
  induction h with
  | nil => intro _ _ _; rfl
  | cons₁ a h ih =>
    intro hx hy hz
    rw [List.filter_cons, if_pos (by simp [hx a (List.mem_cons_self a _)]),
      ih (fun x hm => hx x (List.mem_cons_of_mem a hm)) hy hz]
  | cons₂ a h ih =>
    intro hx hy hz
    rw [List.filter_cons, if_neg (by simp [hy a (List.mem_cons_self a _)]),
      ih hx (fun y hm => hy y (List.mem_cons_of_mem a hm)) hz]
  | cons₃ a h ih =>
    intro hx hy hz
    rw [List.filter_cons, if_neg (by simp [hz a (List.mem_cons_self a _)]),
      ih hx hy (fun z hm => hz z (List.mem_cons_of_mem a hm))]

/-- Filtering an interleaving by a predicate selecting the second trace. -/
theorem interleave3_filter₂ {α : Type} (p : α → Bool) : ∀ {xs ys zs ws : List α},
    Interleave3 xs ys zs ws → (∀ x ∈ xs, p x = false) → (∀ y ∈ ys, p y = true) →
    (∀ z ∈ zs, p z = false) → ws.filter p = ys := by
  intro xs ys zs ws h
  induction h with
  | nil => intro _ _ _; rfl
  | cons₁ a h ih =>
    intro hx hy hz
    rw [List.filter_cons, if_neg (by simp [hx a (List.mem_cons_self a _)]),
      ih (fun x hm => hx x (List.mem_cons_of_mem a hm)) hy hz]
  | cons₂ a h ih =>
    intro hx hy hz
    rw [List.filter_cons, if_pos (by simp [hy a (List.mem_cons_self a _)]),
      ih hx (fun y hm => hy y (List.mem_cons_of_mem a hm)) hz]
  | cons₃ a h ih =>
    intro hx hy hz
    rw [List.filter_cons, if_neg (by simp [hz a (List.mem_cons_self a _)]),
      ih hx hy (fun z hm => hz z (List.mem_cons_of_mem a hm))]

/-- Filtering an interleaving by a predicate selecting the third trace. -/
theorem interleave3_filter₃ {α : Type} (p : α → Bool) : ∀ {xs ys zs ws : List α},
    Interleave3 xs ys zs ws → (∀ x ∈ xs, p x = false) → (∀ y ∈ ys, p y = false) →
    (∀ z ∈ zs, p z = true) → ws.filter p = zs := by
  intro xs ys zs ws h
  induction h with
  | nil => intro _ _ _; rfl
  | cons₁ a h ih =>
    intro hx hy hz
    rw [List.filter_cons, if_neg (by simp [hx a (List.mem_cons_self a _)]),
      ih (fun x hm => hx x (List.mem_cons_of_mem a hm)) hy hz]
  | cons₂ a h ih =>
    intro hx hy hz
    rw [List.filter_cons, if_neg (by simp [hy a (List.mem_cons_self a _)]),
      ih hx (fun y hm => hy y (List.mem_cons_of_mem a hm)) hz]
  | cons₃ a h ih =>
    intro hx hy hz
    rw [List.filter_cons, if_pos (by simp [hz a (List.mem_cons_self a _)]),
      ih hx hy (fun z hm => hz z (List.mem_cons_of_mem a hm))]

/-- Untagging a task trace recovers the trace. -/
theorem tagOps_untag (aid : List Char) (ops : List ArtOp) :
    (tagOps aid ops).map (·.2) = ops := by
  rw [tagOps, List.map_map]
  exact List.map_id ops

/-- Every element of a task trace carries the task's artifact id. -/
theorem tagOps_tag (aid : List Char) (ops : List ArtOp) :
    ∀ t ∈ tagOps aid ops, t.1 = aid := by
  intro t ht
  rw [tagOps] at ht
  obtain ⟨op, _, rfl⟩ := List.mem_map.mp ht
  rfl

/-- C9: with three concurrent generation tasks over a session's three
artifacts, under any interleaving of their store updates, a thrown failure in
the second task writes the fixed placeholder and `error` status to its own
artifact only: every other session is unchanged, the session's identity fields
are unchanged, and the sibling artifacts finalise to `complete` with their own
cleaned content, so the final statuses are `[complete, error, complete]`. -/
theorem generation_isolation
    (sessions : List Session) (k : Nat) (s : Session) (sid : List Char)
    (a0 a1 a2 : Artifact) (frags0 frags1 frags2 : List (List Char))
    (ws : List (List Char × ArtOp))
    (hs : sessions[k]? = some s) (hsid : s.id = sid)
    (huniq : ∀ j s', sessions[j]? = some s' → j ≠ k → s'.id ≠ sid)
    (harts : s.artifacts = [a0, a1, a2])
    (hid01 : a0.id ≠ a1.id) (hid02 : a0.id ≠ a2.id) (hid12 : a1.id ≠ a2.id)
    (hinter : Interleave3 (tagOps a0.id (taskSuccessOps frags0))
        (tagOps a1.id (taskFailOps frags1)) (tagOps a2.id (taskSuccessOps frags2)) ws)
    (h0 : cleanupHtml frags0.flatten ≠ []) (h2 : cleanupHtml frags2.flatten ≠ []) :
    (∀ j, j ≠ k → (runTagged sid ws sessions)[j]? = sessions[j]?) ∧
    (runTagged sid ws sessions)[k]? = some
      { s with artifacts :=
          [{ a0 with html := cleanupHtml frags0.flatten, status := .complete },
           { a1 with html := genFailedHtml, status := .error },
           { a2 with html := cleanupHtml frags2.flatten, status := .complete }] } := by
  constructor
  · intro j hj
    cases hsj : sessions[j]? with
    | none =>
      rw [List.getElem?_eq_none_iff] at hsj
      rw [List.getElem?_eq_none_iff, runTagged_length]
      exact hsj
    | some s' =>
      exact runTagged_other sid ws sessions j s' hsj (huniq j s' hsj hj)
  · have hfold := runTagged_target sid ws sessions k s hs hsid
    rw [artsFold_map, harts] at hfold
    have hA0 : artFold ws a0 =
        { a0 with html := cleanupHtml frags0.flatten, status := Status.complete } := by
      rw [artFold_filter,
        interleave3_filter₁ (fun t => decide (t.1 = a0.id)) hinter
          (fun x hx => by simp [tagOps_tag a0.id (taskSuccessOps frags0) x hx])
          (fun y hy => by simp [tagOps_tag a1.id (taskFailOps frags1) y hy]; exact fun he => hid01 he.symm)
          (fun z hz => by simp [tagOps_tag a2.id (taskSuccessOps frags2) z hz]; exact fun he => hid02 he.symm),
        tagOps_untag, runArtifact_success, if_neg h0]
    have hA1 : artFold ws a1 = { a1 with html := genFailedHtml, status := .error } := by
      rw [artFold_filter,
        interleave3_filter₂ (fun t => decide (t.1 = a1.id)) hinter
          (fun x hx => by simp [tagOps_tag a0.id (taskSuccessOps frags0) x hx]; exact hid01)
          (fun y hy => by simp [tagOps_tag a1.id (taskFailOps frags1) y hy])
          (fun z hz => by simp [tagOps_tag a2.id (taskSuccessOps frags2) z hz]; exact fun he => hid12 he.symm),
        tagOps_untag, runArtifact_failure]
    have hA2 : artFold ws a2 =
        { a2 with html := cleanupHtml frags2.flatten, status := Status.complete } := by
      rw [artFold_filter,
        interleave3_filter₃ (fun t => decide (t.1 = a2.id)) hinter
          (fun x hx => by simp [tagOps_tag a0.id (taskSuccessOps frags0) x hx]; exact hid02)
          (fun y hy => by simp [tagOps_tag a1.id (taskFailOps frags1) y hy]; exact hid12)
          (fun z hz => by simp [tagOps_tag a2.id (taskSuccessOps frags2) z hz]),
        tagOps_untag, runArtifact_success, if_neg h2]
    rw [List.map_cons, List.map_cons, List.map_cons, List.map_nil, hA0, hA1, hA2] at hfold
    exact hfold

/-- An interleaving may take the whole third trace first. -/
theorem interleave3_right (zs : List α) : Interleave3 [] [] zs zs := by
  induction zs with
  | nil => exact .nil
  | cons z t ih => exact .cons₃ z ih

/-- An interleaving may run the second trace, then the third. -/
theorem interleave3_mid (ys zs : List α) : Interleave3 [] ys zs (ys ++ zs) := by
  induction ys with
  | nil => simpa using interleave3_right zs
  | cons y t ih => exact .cons₂ y ih

/-- Sequential execution is one possible interleaving of three traces. -/
theorem interleave3_seq (xs ys zs : List α) : Interleave3 xs ys zs (xs ++ (ys ++ zs)) := by
  induction xs with
  | nil => simpa using interleave3_mid ys zs
  | cons x t ih => exact .cons₁ x ih

/-- C9 witness: a concrete run — three one-fragment tasks over a one-session
store, the second task throwing — executed in a sequential interleaving ends
with artifact statuses `[complete, error, complete]`, the failed artifact
holding the fixed placeholder, and the session's other fields intact. -/
theorem generation_isolation_witness :
    (runTagged ['s']
        (tagOps ['x'] (taskSuccessOps [['<', 'a', '>']]) ++
          (tagOps ['y'] (taskFailOps [['q']]) ++ tagOps ['z'] (taskSuccessOps [['<', 'b', '>']])))
        [{ id := ['s'], prompt := ['p'], userAnswers := [], timestamp := 0,
           artifacts :=
             [{ id := ['x'], styleName := [], html := [], status := .streaming },
              { id := ['y'], styleName := [], html := [], status := .streaming },
              { id := ['z'], styleName := [], html := [], status := .streaming }] }])[0]? =
      some
        { id := ['s'], prompt := ['p'], userAnswers := [], timestamp := 0,
          artifacts :=
            [{ id := ['x'], styleName := [], html := ['<', 'a', '>'], status := .complete },
             { id := ['y'], styleName := [], html := genFailedHtml, status := .error },
             { id := ['z'], styleName := [], html := ['<', 'b', '>'], status := .complete }] } :=
  ((generation_isolation
      [{ id := ['s'], prompt := ['p'], userAnswers := [], timestamp := 0,
         artifacts :=
           [{ id := ['x'], styleName := [], html := [], status := .streaming },
            { id := ['y'], styleName := [], html := [], status := .streaming },
            { id := ['z'], styleName := [], html := [], status := .streaming }] }]
      0
      { id := ['s'], prompt := ['p'], userAnswers := [], timestamp := 0,
        artifacts :=
          [{ id := ['x'], styleName := [], html := [], status := .streaming },
           { id := ['y'], styleName := [], html := [], status := .streaming },
           { id := ['z'], styleName := [], html := [], status := .streaming }] }
      ['s']
      { id := ['x'], styleName := [], html := [], status := .streaming }
      { id := ['y'], styleName := [], html := [], status := .streaming }
      { id := ['z'], styleName := [], html := [], status := .streaming }
      [['<', 'a', '>']] [['q']] [['<', 'b', '>']]
      (tagOps ['x'] (taskSuccessOps [['<', 'a', '>']]) ++
        (tagOps ['y'] (taskFailOps [['q']]) ++ tagOps ['z'] (taskSuccessOps [['<', 'b', '>']])))
      rfl rfl
      (fun j s' hj hne => by
        cases j with
        | zero => exact absurd rfl hne
        | succ n => simp at hj)
      rfl (by decide) (by decide) (by decide)
      (interleave3_seq _ _ _) (by decide) (by decide)).2).trans rfl
